import Mathlib

/-!
Verification development for the format-conversion and validation builtin
layer of the regorus policy engine (src/builtins/encoding.rs).

The builtins are shallowly embedded as Lean functions.  Rust strings are
modelled at byte granularity as `List Nat` (a Rust `String` is a sequence of
UTF-8 bytes; `String::from_utf8_lossy` is the identity on the valid UTF-8
byte sequences produced here, so it is modelled as the identity).  Machine
integers do not occur in the claims; JSON numbers are modelled as `Int`
(the engine's arbitrary-precision `Number` payload is abstracted to
integers).  Fallible Rust code returning `anyhow::Result` is modelled with
`Except`; source spans only decorate error messages in the Rust code, so
errors are modelled as their messages.

External collaborators that are not part of this source file
(`builtins::utils`, the `Value` type, the `data_encoding`, `url`,
`serde_json`, `serde_yaml` and `jsonschema` crates) are modelled from the
specification; each such definition carries a doc comment saying so.
-/

/-- Bytes of a Rust string, modelled as a list of naturals. -/
abbrev Bytes := List Nat

/-- Byte list of an ASCII string literal. -/
def sb (s : String) : Bytes := s.data.map Char.toNat

/-- Modelled from the spec: the error taxonomy of the builtin layer.
`arityMismatch` is the ArityError raised by `ensure_args_count` (naming the
builtin and the expected vs. actual count), `typeMismatch` the TypeError
raised by `ensure_string`, and `callError` any other raised failure,
carrying the (span-decorated) message bytes. -/
inductive EvalError where
  | arityMismatch (name : String) (expected actual : Nat)
  | typeMismatch (name : String)
  | callError (msg : Bytes)
deriving DecidableEq, Repr

/-- Modelled from the spec: the engine's dynamic `Value` model (value.rs is
not part of this source file).  A tagged union with variants Null, Bool,
Number, String, Array and Object, plus the engine's `Set` and `Undefined`
variants.  Objects are key-sorted maps, represented as association lists
whose well-formedness (keys strictly ascending) is stated separately. -/
inductive Value where
  | Undefined : Value
  | Null : Value
  | Bool : Bool → Value
  | Number : Int → Value
  | String : Bytes → Value
  | Array : List Value → Value
  | SetV : List Value → Value
  | Object : List (Value × Value) → Value

/-- Lexicographic comparison of byte lists. -/
def bytesCmp : Bytes → Bytes → Ordering
  | [], [] => .eq
  | [], _ :: _ => .lt
  | _ :: _, [] => .gt
  | a :: as, b :: bs =>
    match compare a b with
    | .eq => bytesCmp as bs
    | o => o

/-- Variant rank used for cross-variant ordering of `Value`s. -/
def Value.rank : Value → Nat
  | .Null => 0
  | .Bool _ => 1
  | .Number _ => 2
  | .String _ => 3
  | .Array _ => 4
  | .Object _ => 5
  | .SetV _ => 6
  | .Undefined => 7

mutual

/-- Modelled from the spec: the total order on `Value` that keys the
engine's `BTreeMap` objects ("deterministic iteration order by key
ordering").  String keys compare lexicographically by bytes; only
string-string comparisons are exercised by the claims. -/
def Value.cmp : Value → Value → Ordering
  | .Undefined, .Undefined => .eq
  | .Null, .Null => .eq
  | .Bool a, .Bool b => compare a b
  | .Number a, .Number b => compare a b
  | .String a, .String b => bytesCmp a b
  | .Array a, .Array b => Value.cmpList a b
  | .SetV a, .SetV b => Value.cmpList a b
  | .Object a, .Object b => Value.cmpPairs a b
  | a, b => compare a.rank b.rank

def Value.cmpList : List Value → List Value → Ordering
  | [], [] => .eq
  | [], _ :: _ => .lt
  | _ :: _, [] => .gt
  | a :: as, b :: bs =>
    match Value.cmp a b with
    | .eq => Value.cmpList as bs
    | o => o

def Value.cmpPairs : List (Value × Value) → List (Value × Value) → Ordering
  | [], [] => .eq
  | [], _ :: _ => .lt
  | _ :: _, [] => .gt
  | (k, v) :: as, (k', v') :: bs =>
    match Value.cmp k k' with
    | .eq =>
      match Value.cmp v v' with
      | .eq => Value.cmpPairs as bs
      | o => o
    | o => o

end

/-- Modelled from the spec: `BTreeMap::insert` on the sorted association
list representing an object (replaces on an equal key). -/
def mapInsert (k v : Value) : List (Value × Value) → List (Value × Value)
  | [] => [(k, v)]
  | (k', v') :: rest =>
    match Value.cmp k k' with
    | .lt => (k, v) :: (k', v') :: rest
    | .eq => (k, v) :: rest
    | .gt => (k', v') :: mapInsert k v rest

/-- Modelled from the spec: `BTreeMap` lookup on the association list. -/
def mapGet (k : Value) : List (Value × Value) → Option Value
  | [] => none
  | (k', v') :: rest =>
    if Value.cmp k k' = .eq then some v' else mapGet k rest

/-- Push a value onto an array `Value`; any other variant is left unchanged
(mirroring `if let Ok(a) = v.as_array_mut() { a.push(value) }`). -/
def pushArr (arr v : Value) : Value :=
  match arr with
  | .Array a => .Array (a ++ [v])
  | other => other

/-- Modelled from the spec: `map.entry(k).or_insert(Value::new_array())`
followed by pushing `v`, on the sorted association list. -/
def mapAppendAt (k v : Value) : List (Value × Value) → List (Value × Value)
  | [] => [(k, .Array [v])]
  | (k', v') :: rest =>
    match Value.cmp k k' with
    | .lt => (k, .Array [v]) :: (k', v') :: rest
    | .eq => (k', pushArr v' v) :: rest
    | .gt => (k', v') :: mapAppendAt k v rest

/-- Modelled from the spec: `builtins::utils::ensure_args_count` (not in
this source file) fails with an ArityError naming the builtin and the
expected vs. actual count when the argument count differs from the
declared arity, before any other work. -/
def ensure_args_count (name : String) (args : List Value) (expected : Nat) :
    Except EvalError Unit :=
  if args.length = expected then .ok () else
    .error (.arityMismatch name expected args.length)

/-- Modelled from the spec: `builtins::utils::ensure_string` (not in this
source file) fails with a TypeError when the argument is not a string and
returns the borrowed text otherwise. -/
def ensure_string (name : String) (arg : Value) : Except EvalError Bytes :=
  match arg with
  | .String s => .ok s
  | _ => .error (.typeMismatch name)

/-! ## Base64 / Base64URL / Hex codecs

Modelled from the spec: the `data_encoding` crate (an external codec
dependency) implements RFC 4648.  `BASE64` and `BASE64URL` are the padded
canonical encodings, `BASE64URL_NOPAD` the unpadded variant,
`HEXLOWER_PERMISSIVE` lowercase hex encoding with case-insensitive decode.
Decoding rejects invalid alphabet bytes, invalid padding, lengths not
matching the padding discipline, and non-zero trailing bits. -/

/-- Standard base64 alphabet: 6-bit group index to ASCII byte. -/
def b64ChrStd (i : Nat) : Nat :=
  if i < 26 then 65 + i
  else if i < 52 then 97 + (i - 26)
  else if i < 62 then 48 + (i - 52)
  else if i = 62 then 43
  else 47

/-- URL-safe base64 alphabet: 6-bit group index to ASCII byte. -/
def b64ChrUrl (i : Nat) : Nat :=
  if i < 26 then 65 + i
  else if i < 52 then 97 + (i - 26)
  else if i < 62 then 48 + (i - 52)
  else if i = 62 then 45
  else 95

/-- Inverse of the standard base64 alphabet. -/
def b64DecStd (c : Nat) : Option Nat :=
  if 65 ≤ c ∧ c ≤ 90 then some (c - 65)
  else if 97 ≤ c ∧ c ≤ 122 then some (c - 71)
  else if 48 ≤ c ∧ c ≤ 57 then some (c + 4)
  else if c = 43 then some 62
  else if c = 47 then some 63
  else none

/-- Inverse of the URL-safe base64 alphabet. -/
def b64DecUrl (c : Nat) : Option Nat :=
  if 65 ≤ c ∧ c ≤ 90 then some (c - 65)
  else if 97 ≤ c ∧ c ≤ 122 then some (c - 71)
  else if 48 ≤ c ∧ c ≤ 57 then some (c + 4)
  else if c = 45 then some 62
  else if c = 95 then some 63
  else none

/-- Regroup a byte sequence into 6-bit groups (base64 body, pre-alphabet). -/
def b64Sextets : Bytes → List Nat
  | a :: b :: c :: rest =>
    (a / 4) :: ((a % 4) * 16 + b / 16) :: ((b % 16) * 4 + c / 64) :: (c % 64) ::
      b64Sextets rest
  | [a, b] => [a / 4, (a % 4) * 16 + b / 16, (b % 16) * 4]
  | [a] => [a / 4, (a % 4) * 16]
  | [] => []

/-- Regroup 6-bit groups back into bytes, rejecting a trailing group of one
sextet and non-zero trailing bits (canonical decoding). -/
def b64Bytes : List Nat → Option Bytes
  | s1 :: s2 :: s3 :: s4 :: rest =>
    match b64Bytes rest with
    | some r =>
      some ((s1 * 4 + s2 / 16) :: ((s2 % 16) * 16 + s3 / 4) ::
        ((s3 % 4) * 64 + s4) :: r)
    | none => none
  | [s1, s2, s3] =>
    if s3 % 4 = 0 then some [s1 * 4 + s2 / 16, (s2 % 16) * 16 + s3 / 4] else none
  | [s1, s2] =>
    if s2 % 16 = 0 then some [s1 * 4 + s2 / 16] else none
  | [_] => none
  | [] => some []

/-- Decode every byte through an alphabet inverse, failing on the first
byte outside the alphabet. -/
def decChars (dec : Nat → Option Nat) : Bytes → Option (List Nat)
  | [] => some []
  | c :: r =>
    match dec c, decChars dec r with
    | some x, some xs => some (x :: xs)
    | _, _ => none

/-- Drop the trailing run of `'='` (61) bytes. -/
def dropTrailingEq (s : Bytes) : Bytes :=
  ((s.reverse.dropWhile (fun c => c = 61)).reverse)

/-- Unpadded encode with a given alphabet. -/
def b64EncodeNoPad (chr : Nat → Nat) (bs : Bytes) : Bytes :=
  (b64Sextets bs).map chr

/-- Padded encode with a given alphabet: pad with `'='` to a multiple of 4. -/
def b64EncodePad (chr : Nat → Nat) (bs : Bytes) : Bytes :=
  (b64Sextets bs).map chr ++
    List.replicate ((4 - ((b64Sextets bs).map chr).length % 4) % 4) 61

/-- Unpadded canonical decode with a given alphabet inverse: no padding
bytes are accepted (61 is outside both alphabets) and the length and
trailing bits are checked by `b64Bytes`. -/
def b64DecodeNoPad (dec : Nat → Option Nat) (s : Bytes) : Option Bytes :=
  match decChars dec s with
  | some sext => b64Bytes sext
  | none => none

/-- Padded canonical decode with a given alphabet inverse: the length must
be a multiple of 4, at most two trailing `'='` bytes are stripped, and the
body must decode canonically. -/
def b64DecodePad (dec : Nat → Option Nat) (s : Bytes) : Option Bytes :=
  if s.length % 4 = 0 then
    if s.length - (dropTrailingEq s).length ≤ 2 then
      match decChars dec (dropTrailingEq s) with
      | some sext => b64Bytes sext
      | none => none
    else none
  else none

/-- Lowercase hex digit of a value below 16. -/
def hexChr (d : Nat) : Nat := if d < 10 then 48 + d else 87 + d

/-- Case-insensitive hex digit value. -/
def hexVal (c : Nat) : Option Nat :=
  if 48 ≤ c ∧ c ≤ 57 then some (c - 48)
  else if 97 ≤ c ∧ c ≤ 102 then some (c - 87)
  else if 65 ≤ c ∧ c ≤ 70 then some (c - 55)
  else none

/-- Lowercase hex encoding of a byte sequence. -/
def hexEncode : Bytes → Bytes
  | [] => []
  | b :: rest => hexChr (b / 16) :: hexChr (b % 16) :: hexEncode rest

/-- Permissive (case-insensitive) hex decoding; rejects odd lengths and
bytes outside the hex alphabet. -/
def hexDecode : Bytes → Option Bytes
  | [] => some []
  | [_] => none
  | c1 :: c2 :: rest =>
    match hexVal c1, hexVal c2, hexDecode rest with
    | some h, some l, some r => some ((h * 16 + l) :: r)
    | _, _, _ => none

/-! ## URL query decoding

Modelled from the spec: the `url` crate's query-pair grammar, reused by
prefixing the input with an opaque scheme+host placeholder and `?`.  The
query string splits on `&` (38), empty segments are skipped, each segment
splits at the first `=` (61) into key and value, and both halves undergo
form-url decoding (`+` (43) becomes space, `%hh` percent-escapes decode to
the escaped byte; a malformed escape passes through literally).  Fragment
handling is not exercised by the claims and is omitted. -/

/-- Split a byte list on `&` (38); always returns at least one segment. -/
def splitOnAmp : Bytes → List Bytes
  | [] => [[]]
  | c :: rest =>
    match splitOnAmp rest with
    | s :: ss => if c = 38 then [] :: s :: ss else (c :: s) :: ss
    | [] => [[c]]

/-- Split a segment at its first `=` (61); without one the value is empty. -/
def splitEqSign : Bytes → Bytes × Bytes
  | [] => ([], [])
  | c :: rest =>
    if c = 61 then ([], rest)
    else
      match splitEqSign rest with
      | (k, v) => (c :: k, v)

/-- Form-url decoding of a key or value: `+` to space, `%hh` to a byte. -/
def formDecode : Bytes → Bytes
  | [] => []
  | 43 :: rest => 32 :: formDecode rest
  | 37 :: h1 :: h2 :: rest =>
    match hexVal h1, hexVal h2 with
    | some a, some b => (a * 16 + b) :: formDecode rest
    | _, _ => 37 :: formDecode (h1 :: h2 :: rest)
  | c :: rest => c :: formDecode rest

/-- The `(key, value)` pairs produced by `url.query_pairs()`, in the order
they occur in the query string. -/
def queryPairs (s : Bytes) : List (Bytes × Bytes) :=
  ((splitOnAmp s).filter (fun seg => seg ≠ [])).map fun seg =>
    let kv := splitEqSign seg
    (formDecode kv.1, formDecode kv.2)

/-- Fold the decoded pairs into the key-sorted object, appending each value
to the array stored under its key, in encounter order. -/
def queryObj (ps : List (Bytes × Bytes)) : List (Value × Value) :=
  ps.foldl (fun m p => mapAppendAt (.String p.1) (.String p.2) m) []

/-! ## Decimal digits -/

/-- ASCII decimal digits, least significant first; the fuel bounds the
digit count (`n` itself always suffices). -/
def natDigitsRevAux : Nat → Nat → List Nat
  | 0, _ => []
  | fuel + 1, n =>
    if n = 0 then [] else (48 + n % 10) :: natDigitsRevAux fuel (n / 10)

/-- ASCII decimal digits of `n`, least significant first. -/
def natDigitsRev (n : Nat) : List Nat := natDigitsRevAux n n

/-- ASCII decimal representation of a natural number. -/
def natBytes (n : Nat) : Bytes :=
  if n = 0 then [48] else (natDigitsRev n).reverse

/-- ASCII decimal representation of an integer (minus sign when negative). -/
def intBytes (n : Int) : Bytes :=
  if n < 0 then 45 :: natBytes n.natAbs else natBytes n.natAbs

/-- Whether a byte is an ASCII decimal digit. -/
def isDigit (c : Nat) : Bool := 48 ≤ c ∧ c ≤ 57

/-- Numeric value of a digit run, most significant first. -/
def digitsToNat (ds : Bytes) : Nat :=
  ds.foldl (fun acc c => acc * 10 + (c - 48)) 0

/-- Parse a leading run of decimal digits; fails when there is none. -/
def parseNat (s : Bytes) : Option (Nat × Bytes) :=
  match s.takeWhile isDigit with
  | [] => none
  | ds => some (digitsToNat ds, s.dropWhile isDigit)

/-! ## JSON text

Modelled from the spec: the `Value` model's serialize-to-JSON-text and
parse-from-JSON-text operations, delegated by the source to `serde_json`
(external).  Serialization produces canonical JSON without whitespace;
object keys must themselves serialize as JSON strings (a map with a
non-string key is a serialization error).  Parsing is a recursive-descent
parser over the same grammar; parsed objects are built by inserting each
pair into the key-sorted map in encounter order. -/

/-- JSON string-body escaping: `"` and `\` get a backslash escape, control
bytes below 32 become `\u00hh`, all other bytes pass through. -/
def escBytes : Bytes → Bytes
  | [] => []
  | c :: r =>
    if c = 34 then 92 :: 34 :: escBytes r
    else if c = 92 then 92 :: 92 :: escBytes r
    else if c < 32 then
      92 :: 117 :: 48 :: 48 :: hexChr (c / 16) :: hexChr (c % 16) :: escBytes r
    else c :: escBytes r

/-- Parse a JSON string body up to its closing quote, undoing `escBytes`'s
escapes (`\u` escapes above 255 are outside the byte-level model). -/
def pStr : Bytes → Option (Bytes × Bytes)
  | [] => none
  | 34 :: r => some ([], r)
  | 92 :: 34 :: r =>
    match pStr r with
    | some (s, r') => some (34 :: s, r')
    | none => none
  | 92 :: 92 :: r =>
    match pStr r with
    | some (s, r') => some (92 :: s, r')
    | none => none
  | 92 :: 117 :: h1 :: h2 :: h3 :: h4 :: r =>
    match hexVal h1, hexVal h2, hexVal h3, hexVal h4 with
    | some a, some b, some d1, some d2 =>
      if ((a * 16 + b) * 16 + d1) * 16 + d2 < 256 then
        match pStr r with
        | some (s, r') => some ((((a * 16 + b) * 16 + d1) * 16 + d2) :: s, r')
        | none => none
      else none
    | _, _, _, _ => none
  | 92 :: _ => none
  | c :: r =>
    match pStr r with
    | some (s, r') => some (c :: s, r')
    | none => none

/-- Build the key-sorted object map by inserting pairs in encounter order. -/
def buildMap (ps : List (Value × Value)) : List (Value × Value) :=
  ps.foldl (fun m p => mapInsert p.1 p.2 m) []

mutual

/-- Fueled recursive-descent JSON value parser; returns the parsed value
and the unconsumed remainder. -/
def pVal : Nat → Bytes → Option (Value × Bytes)
  | 0, _ => none
  | _ + 1, [] => none
  | f + 1, c :: rest =>
    if c = 110 then
      match rest with
      | 117 :: 108 :: 108 :: r => some (.Null, r)
      | _ => none
    else if c = 116 then
      match rest with
      | 114 :: 117 :: 101 :: r => some (.Bool true, r)
      | _ => none
    else if c = 102 then
      match rest with
      | 97 :: 108 :: 115 :: 101 :: r => some (.Bool false, r)
      | _ => none
    else if c = 34 then
      match pStr rest with
      | some (s, r) => some (.String s, r)
      | none => none
    else if c = 45 then
      match parseNat rest with
      | some (n, r) => some (.Number (-(n : Int)), r)
      | none => none
    else if isDigit c then
      match parseNat (c :: rest) with
      | some (n, r) => some (.Number (n : Int), r)
      | none => none
    else if c = 91 then
      match rest with
      | [] => none
      | c2 :: r2 =>
        if c2 = 93 then some (.Array [], r2)
        else
          match pVal f (c2 :: r2) with
          | some (v, r) =>
            match pArrTail f r with
            | some (vs, r') => some (.Array (v :: vs), r')
            | none => none
          | none => none
    else if c = 123 then
      match rest with
      | [] => none
      | c2 :: r2 =>
        if c2 = 125 then some (.Object [], r2)
        else if c2 = 34 then
          match pStr r2 with
          | some (k, r1) =>
            match r1 with
            | 58 :: rv =>
              match pVal f rv with
              | some (v, r3) =>
                match pObjTail f r3 with
                | some (ps, r4) =>
                  some (.Object (buildMap ((Value.String k, v) :: ps)), r4)
                | none => none
              | none => none
            | _ => none
          | none => none
        else none
    else none

/-- Parse the rest of a JSON array after its first element: either `]` or a
comma-separated continuation. -/
def pArrTail : Nat → Bytes → Option (List Value × Bytes)
  | 0, _ => none
  | _ + 1, [] => none
  | f + 1, c :: r =>
    if c = 93 then some ([], r)
    else if c = 44 then
      match pVal f r with
      | some (v, r') =>
        match pArrTail f r' with
        | some (vs, r'') => some (v :: vs, r'')
        | none => none
      | none => none
    else none

/-- Parse the rest of a JSON object after its first member: either `\x7d`
or a comma-separated continuation of `"key":value` members. -/
def pObjTail : Nat → Bytes → Option (List (Value × Value) × Bytes)
  | 0, _ => none
  | _ + 1, [] => none
  | f + 1, c :: r =>
    if c = 125 then some ([], r)
    else if c = 44 then
      match r with
      | 34 :: r0 =>
        match pStr r0 with
        | some (k, r1) =>
          match r1 with
          | 58 :: rv =>
            match pVal f rv with
            | some (v, r3) =>
              match pObjTail f r3 with
              | some (ps, r4) => some ((Value.String k, v) :: ps, r4)
              | none => none
            | none => none
          | _ => none
        | none => none
      | _ => none
    else none

end

/-- Parse a complete JSON document: the whole input must be consumed. -/
def jsonParse (s : Bytes) : Option Value :=
  match pVal (s.length + 1) s with
  | some (v, []) => some v
  | _ => none

mutual

/-- Serialize a `Value` to canonical JSON text.  `Undefined` and non-string
object keys are serialization errors; the engine's sets serialize as
sequences. -/
def serVal : Value → Option Bytes
  | .Undefined => none
  | .Null => some [110, 117, 108, 108]
  | .Bool true => some [116, 114, 117, 101]
  | .Bool false => some [102, 97, 108, 115, 101]
  | .Number n => some (intBytes n)
  | .String s => some (34 :: (escBytes s ++ [34]))
  | .Array vs =>
    match vs with
    | [] => some [91, 93]
    | v :: rest =>
      match serVal v, serArrTail rest with
      | some sv, some st => some (91 :: (sv ++ st))
      | _, _ => none
  | .SetV vs =>
    match vs with
    | [] => some [91, 93]
    | v :: rest =>
      match serVal v, serArrTail rest with
      | some sv, some st => some (91 :: (sv ++ st))
      | _, _ => none
  | .Object ps =>
    match ps with
    | [] => some [123, 125]
    | (k, v) :: rest =>
      match serKey k, serVal v, serObjTail rest with
      | some sk, some sv, some st => some (123 :: (sk ++ 58 :: (sv ++ st)))
      | _, _, _ => none

/-- Serialize the remaining elements of a nonempty array. -/
def serArrTail : List Value → Option Bytes
  | [] => some [93]
  | v :: rest =>
    match serVal v, serArrTail rest with
    | some sv, some st => some (44 :: (sv ++ st))
    | _, _ => none

/-- Serialize the remaining members of a nonempty object. -/
def serObjTail : List (Value × Value) → Option Bytes
  | [] => some [125]
  | (k, v) :: rest =>
    match serKey k, serVal v, serObjTail rest with
    | some sk, some sv, some st => some (44 :: (sk ++ 58 :: (sv ++ st)))
    | _, _, _ => none

/-- Serialize an object key: only string keys serialize. -/
def serKey : Value → Option Bytes
  | .String s => some (34 :: (escBytes s ++ [34]))
  | _ => none

end

/-- Adjacent-pairs strict ascending key order of an object's members. -/
def sortedPairs : List (Value × Value) → Bool
  | [] => true
  | [_] => true
  | p :: q :: ps =>
    match Value.cmp p.1 q.1 with
    | .lt => sortedPairs (q :: ps)
    | _ => false

mutual

/-- A value built only from the Null/Bool/Number/String/Array/Object
variants whose objects are key-sorted maps with string keys. -/
def good : Value → Bool
  | .Undefined => false
  | .SetV _ => false
  | .Null => true
  | .Bool _ => true
  | .Number _ => true
  | .String _ => true
  | .Array vs => goodList vs
  | .Object ps => goodPairs ps && sortedPairs ps

def goodList : List Value → Bool
  | [] => true
  | v :: vs => good v && goodList vs

def goodPairs : List (Value × Value) → Bool
  | [] => true
  | (k, v) :: ps =>
    (match k with
     | .String _ => true
     | _ => false) && good v && goodPairs ps

end

mutual

/-- Parser fuel needed for a value (one unit per parser call). -/
def fsize : Value → Nat
  | .Array vs =>
    1 + (match vs with
         | [] => 0
         | v :: rest => max (fsize v) (tmax rest))
  | .Object ps =>
    1 + (match ps with
         | [] => 0
         | (_, v) :: rest => max (fsize v) (omax rest))
  | _ => 1

/-- Parser fuel needed for an array tail. -/
def tmax : List Value → Nat
  | [] => 1
  | v :: vs => 1 + max (fsize v) (tmax vs)

/-- Parser fuel needed for an object tail. -/
def omax : List (Value × Value) → Nat
  | [] => 1
  | (_, v) :: ps => 1 + max (fsize v) (omax ps)

end

/-- Modelled from the spec: YAML serialization (`serde_yaml`, external).
YAML is a textual superset of JSON; the model serializes to the
JSON-compatible flow-style subset of YAML. -/
def yamlSer (v : Value) : Option Bytes := serVal v

/-- Modelled from the spec: YAML parsing (`Value::from_yaml_str`,
external), on the same JSON-compatible subset the model's serializer
emits. -/
def yamlParse (s : Bytes) : Option Value := jsonParse s

/-! ## JSON Schema

Modelled from the spec: the external `jsonschema` crate.  `schemaCheck` is
the structural-validity check performed by `JSONSchema::compile`, which
rejects a parsed document that is not an object or boolean, or whose
`type` keyword carries an invalid value, with the compiler's own message.
`schemaValidateF` validates a document against a compiled schema, covering
the `type` and `properties` keywords (the fragment the claims exercise);
a validation failure produces at least one error string. -/

/-- The JSON Schema primitive type names. -/
def validTypeName (t : Bytes) : Bool :=
  t = sb "null" || t = sb "boolean" || t = sb "object" || t = sb "array" ||
    t = sb "number" || t = sb "string" || t = sb "integer"

/-- Whether a document matches a primitive type name. -/
def typeMatches (t : Bytes) (doc : Value) : Bool :=
  if t = sb "null" then
    match doc with
    | .Null => true
    | _ => false
  else if t = sb "boolean" then
    match doc with
    | .Bool _ => true
    | _ => false
  else if t = sb "number" then
    match doc with
    | .Number _ => true
    | _ => false
  else if t = sb "integer" then
    match doc with
    | .Number _ => true
    | _ => false
  else if t = sb "string" then
    match doc with
    | .String _ => true
    | _ => false
  else if t = sb "array" then
    match doc with
    | .Array _ => true
    | _ => false
  else if t = sb "object" then
    match doc with
    | .Object _ => true
    | _ => false
  else false

/-- Modelled from the spec: the structural check of `JSONSchema::compile`;
`some msg` is a compilation failure carrying the compiler's own message. -/
def schemaCheck (s : Value) : Option Bytes :=
  match s with
  | .Bool _ => none
  | .Object ps =>
    match mapGet (.String (sb "type")) ps with
    | none => none
    | some (.String t) =>
      if validTypeName t then none else some (sb "invalid value for type keyword")
    | some _ => some (sb "invalid value for type keyword")
  | _ => some (sb "schema must be an object or boolean")

mutual

/-- Modelled from the spec: fueled schema validation (`type` and
`properties` keywords); returns the list of validation error strings,
empty exactly when the document validates. -/
def schemaValidateF : Nat → Value → Value → List Bytes
  | 0, _, _ => [sb "schema nesting too deep"]
  | f + 1, schema, doc =>
    match schema with
    | .Bool true => []
    | .Bool false => [sb "false schema rejects every document"]
    | .Object ps =>
      (match mapGet (.String (sb "type")) ps with
       | some (.String t) => if typeMatches t doc then [] else [sb "type mismatch"]
       | _ => []) ++
      (match mapGet (.String (sb "properties")) ps, doc with
       | some (.Object props), .Object dps => schemaValidateProps f props dps
       | _, _ => [])
    | _ => []

/-- Validate each named property's subschema against the document member
of the same name, when present. -/
def schemaValidateProps :
    Nat → List (Value × Value) → List (Value × Value) → List Bytes
  | 0, _, _ => [sb "schema nesting too deep"]
  | _ + 1, [], _ => []
  | f + 1, (k, sub) :: rest, dps =>
    (match mapGet k dps with
     | some dv => schemaValidateF f sub dv
     | none => []) ++ schemaValidateProps f rest dps

end

/-- Validate a document against a compiled schema. -/
def schemaValidate (schema doc : Value) : List Bytes :=
  schemaValidateF (fsize schema) schema doc

/-- The schema text: a string argument is taken as the schema text
directly, any other argument is re-serialized to JSON text (which can
fail, propagating a serialization error). -/
def schemaText (arg : Value) : Option Bytes :=
  match arg with
  | .String s => some s
  | _ => serVal arg

/-- `compile_json_schema`: the schema text is JSON-parsed (failure: the
span-decorated "not a valid json schema") and the parsed document is
compiled (failure: the compiler's own message). -/
def compile_json_schema (arg : Value) : Except Bytes Value :=
  match schemaText arg with
  | none => .error (sb "could not serialize to json")
  | some schemaStr =>
    match jsonParse schemaStr with
    | some schema =>
      match schemaCheck schema with
      | none => .ok schema
      | some e => .error e
    | none => .error (sb "not a valid json schema")

/-! ## The builtins

Each builtin takes the evaluated argument list and the strict-mode flag
and returns a `Value` or a failure, mirroring the bodies in
src/builtins/encoding.rs (source spans, used there only to decorate
errors, are omitted). -/

def base64_decode (args : List Value) (_strict : Bool) : Except EvalError Value :=
  match ensure_args_count "base64.decode" args 1 with
  | .error e => .error e
  | .ok _ =>
    match ensure_string "base64.decode" (args.headD .Undefined) with
    | .error e => .error e
    | .ok s =>
      match b64DecodePad b64DecStd s with
      | some bytes => .ok (.String bytes)
      | none => .error (.callError (sb "invalid base64"))

def base64_encode (args : List Value) (_strict : Bool) : Except EvalError Value :=
  match ensure_args_count "base64.encode" args 1 with
  | .error e => .error e
  | .ok _ =>
    match ensure_string "base64.encode" (args.headD .Undefined) with
    | .error e => .error e
    | .ok s => .ok (.String (b64EncodePad b64ChrStd s))

def base64_is_valid (args : List Value) (_strict : Bool) : Except EvalError Value :=
  match ensure_args_count "base64.is_valid" args 1 with
  | .error e => .error e
  | .ok _ =>
    match ensure_string "base64.is_valid" (args.headD .Undefined) with
    | .error e => .error e
    | .ok s => .ok (.Bool (b64DecodePad b64DecStd s).isSome)

def base64url_decode (args : List Value) (_strict : Bool) : Except EvalError Value :=
  match ensure_args_count "base64url.decode" args 1 with
  | .error e => .error e
  | .ok _ =>
    match ensure_string "base64url.decode" (args.headD .Undefined) with
    | .error e => .error e
    | .ok s =>
      match b64DecodePad b64DecUrl s with
      | some bytes => .ok (.String bytes)
      | none =>
        match b64DecodeNoPad b64DecUrl s with
        | some bytes => .ok (.String bytes)
        | none => .error (.callError (sb "invalid base64url"))

def base64url_encode (args : List Value) (_strict : Bool) : Except EvalError Value :=
  match ensure_args_count "base64url.encode" args 1 with
  | .error e => .error e
  | .ok _ =>
    match ensure_string "base64url.encode" (args.headD .Undefined) with
    | .error e => .error e
    | .ok s => .ok (.String (b64EncodePad b64ChrUrl s))

def base64url_encode_no_pad (args : List Value) (_strict : Bool) :
    Except EvalError Value :=
  match ensure_args_count "base64url.encode_no_pad" args 1 with
  | .error e => .error e
  | .ok _ =>
    match ensure_string "base64url.encode_no_pad" (args.headD .Undefined) with
    | .error e => .error e
    | .ok s => .ok (.String (b64EncodeNoPad b64ChrUrl s))

def hex_decode (args : List Value) (_strict : Bool) : Except EvalError Value :=
  match ensure_args_count "hex.decode" args 1 with
  | .error e => .error e
  | .ok _ =>
    match ensure_string "hex.decode" (args.headD .Undefined) with
    | .error e => .error e
    | .ok s =>
      match hexDecode s with
      | some bytes => .ok (.String bytes)
      | none => .error (.callError (sb "invalid hex"))

def hex_encode (args : List Value) (_strict : Bool) : Except EvalError Value :=
  match ensure_args_count "hex.encode" args 1 with
  | .error e => .error e
  | .ok _ =>
    match ensure_string "hex.encode" (args.headD .Undefined) with
    | .error e => .error e
    | .ok s => .ok (.String (hexEncode s))

/-- The source's `urlquery_decode_object` names itself `"urlquery.encode"`
in its error attribution (`let name = "urlquery.encode";`).  The synthetic
URL `"https://non-existent?" + s` parse-failure path is not reachable in
the byte-level query model, which accepts every query string. -/
def urlquery_decode_object (args : List Value) (_strict : Bool) :
    Except EvalError Value :=
  match ensure_args_count "urlquery.encode" args 1 with
  | .error e => .error e
  | .ok _ =>
    match ensure_string "urlquery.encode" (args.headD .Undefined) with
    | .error e => .error e
    | .ok s => .ok (.Object (queryObj (queryPairs s)))

def yaml_is_valid (args : List Value) (_strict : Bool) : Except EvalError Value :=
  match ensure_args_count "yaml.is_valid" args 1 with
  | .error e => .error e
  | .ok _ =>
    match ensure_string "yaml.is_valid" (args.headD .Undefined) with
    | .error e => .error e
    | .ok s => .ok (.Bool (yamlParse s).isSome)

def yaml_marshal (args : List Value) (_strict : Bool) : Except EvalError Value :=
  match ensure_args_count "yaml.marshal" args 1 with
  | .error e => .error e
  | .ok _ =>
    match yamlSer (args.headD .Undefined) with
    | some t => .ok (.String t)
    | none => .error (.callError (sb "could not serialize to yaml"))

def yaml_unmarshal (args : List Value) (_strict : Bool) : Except EvalError Value :=
  match ensure_args_count "yaml.unmarshal" args 1 with
  | .error e => .error e
  | .ok _ =>
    match ensure_string "yaml.unmarshal" (args.headD .Undefined) with
    | .error e => .error e
    | .ok s =>
      match yamlParse s with
      | some v => .ok v
      | none => .error (.callError (sb "could not deserialize yaml."))

def json_is_valid (args : List Value) (_strict : Bool) : Except EvalError Value :=
  match ensure_args_count "json.is_valid" args 1 with
  | .error e => .error e
  | .ok _ =>
    match ensure_string "json.is_valid" (args.headD .Undefined) with
    | .error e => .error e
    | .ok s => .ok (.Bool (jsonParse s).isSome)

def json_marshal (args : List Value) (_strict : Bool) : Except EvalError Value :=
  match ensure_args_count "json.marshal" args 1 with
  | .error e => .error e
  | .ok _ =>
    match serVal (args.headD .Undefined) with
    | some t => .ok (.String t)
    | none => .error (.callError (sb "could not serialize to json"))

def json_unmarshal (args : List Value) (_strict : Bool) : Except EvalError Value :=
  match ensure_args_count "json.unmarshal" args 1 with
  | .error e => .error e
  | .ok _ =>
    match ensure_string "json.unmarshal" (args.headD .Undefined) with
    | .error e => .error e
    | .ok s =>
      match jsonParse s with
      | some v => .ok v
      | none => .error (.callError (sb "could not deserialize json."))

def json_verify_schema (args : List Value) (strict : Bool) : Except EvalError Value :=
  match ensure_args_count "json.verify_schema" args 1 with
  | .error e => .error e
  | .ok _ =>
    match compile_json_schema (args.headD .Undefined) with
    | .ok _ => .ok (.Array [.Bool true, .Null])
    | .error e =>
      if strict then .error (.callError (sb "invalid schema: " ++ e))
      else .ok (.Array [.Bool false, .String e])

def json_match_schema (args : List Value) (strict : Bool) : Except EvalError Value :=
  match ensure_args_count "json.match_schema" args 2 with
  | .error e => .error e
  | .ok _ =>
    match serVal (args.headD .Undefined) with
    | none => .error (.callError (sb "could not serialize to json"))
    | some dt =>
      match jsonParse dt with
      | none => .error (.callError (sb "could not deserialize json."))
      | some doc =>
        match compile_json_schema ((args.drop 1).headD .Undefined) with
        | .ok schema =>
          match schemaValidate schema doc with
          | [] => .ok (.Array [.Bool true, .Null])
          | e :: es =>
            .ok (.Array [.Bool false, .Array ((e :: es).map (fun m => .String m))])
        | .error e =>
          if strict then .error (.callError (sb "invalid schema: " ++ e))
          else .ok (.Array [.Bool false, .String e])

/-! ## The registry -/

/-- The compile-time feature flags gating registry population. -/
structure Features where
  base64 : Bool
  base64url : Bool
  hex : Bool
  urlquery : Bool
  jsonschema : Bool
  yaml : Bool

/-- A registry entry value: the builtin function and its declared arity. -/
abbrev BuiltinFcn := (List Value → Bool → Except EvalError Value) × Nat

/-- The builtin registry of encoding.rs, conditionally populated per
enabled feature. -/
def register (f : Features) : List (String × BuiltinFcn) :=
  (if f.base64 then
    [("base64.decode", (base64_decode, 1)),
     ("base64.encode", (base64_encode, 1)),
     ("base64.is_valid", (base64_is_valid, 1))]
   else []) ++
  (if f.base64url then
    [("base64url.decode", (base64url_decode, 1)),
     ("base64url.encode", (base64url_encode, 1)),
     ("base64url.encode_no_pad", (base64url_encode_no_pad, 1))]
   else []) ++
  (if f.hex then
    [("hex.decode", (hex_decode, 1)),
     ("hex.encode", (hex_encode, 1))]
   else []) ++
  (if f.urlquery then [("urlquery.decode_object", (urlquery_decode_object, 1))]
   else []) ++
  [("json.is_valid", (json_is_valid, 1)),
   ("json.marshal", (json_marshal, 1)),
   ("json.unmarshal", (json_unmarshal, 1))] ++
  (if f.jsonschema then
    [("json.match_schema", (json_match_schema, 2)),
     ("json.verify_schema", (json_verify_schema, 1))]
   else []) ++
  (if f.yaml then
    [("yaml.is_valid", (yaml_is_valid, 1)),
     ("yaml.marshal", (yaml_marshal, 1)),
     ("yaml.unmarshal", (yaml_unmarshal, 1))]
   else [])

/-- Every feature enabled. -/
def allFeatures : Features := ⟨true, true, true, true, true, true⟩

/-- The name each builtin body uses in its own error attribution: the
registered name, except that `urlquery.decode_object`'s body says
`"urlquery.encode"`. -/
def bodyName (registered : String) : String :=
  if registered = "urlquery.decode_object" then "urlquery.encode" else registered

/-! ## Arity enforcement lemmas -/

theorem base64_decode_arity (args : List Value) (strict : Bool)
    (h : args.length ≠ 1) :
    base64_decode args strict = .error (.arityMismatch "base64.decode" 1 args.length) := by
  unfold base64_decode ensure_args_count
  simp [h]

theorem base64_encode_arity (args : List Value) (strict : Bool)
    (h : args.length ≠ 1) :
    base64_encode args strict = .error (.arityMismatch "base64.encode" 1 args.length) := by
  unfold base64_encode ensure_args_count
  simp [h]

theorem base64_is_valid_arity (args : List Value) (strict : Bool)
    (h : args.length ≠ 1) :
    base64_is_valid args strict = .error (.arityMismatch "base64.is_valid" 1 args.length) := by
  unfold base64_is_valid ensure_args_count
  simp [h]

theorem base64url_decode_arity (args : List Value) (strict : Bool)
    (h : args.length ≠ 1) :
    base64url_decode args strict = .error (.arityMismatch "base64url.decode" 1 args.length) := by
  unfold base64url_decode ensure_args_count
  simp [h]

theorem base64url_encode_arity (args : List Value) (strict : Bool)
    (h : args.length ≠ 1) :
    base64url_encode args strict = .error (.arityMismatch "base64url.encode" 1 args.length) := by
  unfold base64url_encode ensure_args_count
  simp [h]

theorem base64url_encode_no_pad_arity (args : List Value) (strict : Bool)
    (h : args.length ≠ 1) :
    base64url_encode_no_pad args strict =
      .error (.arityMismatch "base64url.encode_no_pad" 1 args.length) := by
  unfold base64url_encode_no_pad ensure_args_count
  simp [h]

theorem hex_decode_arity (args : List Value) (strict : Bool)
    (h : args.length ≠ 1) :
    hex_decode args strict = .error (.arityMismatch "hex.decode" 1 args.length) := by
  unfold hex_decode ensure_args_count
  simp [h]

theorem hex_encode_arity (args : List Value) (strict : Bool)
    (h : args.length ≠ 1) :
    hex_encode args strict = .error (.arityMismatch "hex.encode" 1 args.length) := by
  unfold hex_encode ensure_args_count
  simp [h]

theorem urlquery_decode_object_arity (args : List Value) (strict : Bool)
    (h : args.length ≠ 1) :
    urlquery_decode_object args strict =
      .error (.arityMismatch "urlquery.encode" 1 args.length) := by
  unfold urlquery_decode_object ensure_args_count
  simp [h]

theorem yaml_is_valid_arity (args : List Value) (strict : Bool)
    (h : args.length ≠ 1) :
    yaml_is_valid args strict = .error (.arityMismatch "yaml.is_valid" 1 args.length) := by
  unfold yaml_is_valid ensure_args_count
  simp [h]

theorem yaml_marshal_arity (args : List Value) (strict : Bool)
    (h : args.length ≠ 1) :
    yaml_marshal args strict = .error (.arityMismatch "yaml.marshal" 1 args.length) := by
  unfold yaml_marshal ensure_args_count
  simp [h]

theorem yaml_unmarshal_arity (args : List Value) (strict : Bool)
    (h : args.length ≠ 1) :
    yaml_unmarshal args strict = .error (.arityMismatch "yaml.unmarshal" 1 args.length) := by
  unfold yaml_unmarshal ensure_args_count
  simp [h]

theorem json_is_valid_arity (args : List Value) (strict : Bool)
    (h : args.length ≠ 1) :
    json_is_valid args strict = .error (.arityMismatch "json.is_valid" 1 args.length) := by
  unfold json_is_valid ensure_args_count
  simp [h]

theorem json_marshal_arity (args : List Value) (strict : Bool)
    (h : args.length ≠ 1) :
    json_marshal args strict = .error (.arityMismatch "json.marshal" 1 args.length) := by
  unfold json_marshal ensure_args_count
  simp [h]

theorem json_unmarshal_arity (args : List Value) (strict : Bool)
    (h : args.length ≠ 1) :
    json_unmarshal args strict = .error (.arityMismatch "json.unmarshal" 1 args.length) := by
  unfold json_unmarshal ensure_args_count
  simp [h]

theorem json_verify_schema_arity (args : List Value) (strict : Bool)
    (h : args.length ≠ 1) :
    json_verify_schema args strict =
      .error (.arityMismatch "json.verify_schema" 1 args.length) := by
  unfold json_verify_schema ensure_args_count
  simp [h]

theorem json_match_schema_arity (args : List Value) (strict : Bool)
    (h : args.length ≠ 2) :
    json_match_schema args strict =
      .error (.arityMismatch "json.match_schema" 2 args.length) := by
  unfold json_match_schema ensure_args_count
  simp [h]

/-! ## Registry lemmas -/

theorem mem_of_mem_ite_nil {α : Type} {c : Prop} [Decidable c] {l : List α}
    {e : α} (h : e ∈ if c then l else []) : e ∈ l := by
  split at h
  · exact h
  · simp at h

/-- Every conditionally-registered entry appears in the all-features
registry. -/
theorem register_mem_all (f : Features) (e : String × BuiltinFcn)
    (he : e ∈ register f) : e ∈ register allFeatures := by
  simp only [register, List.mem_append] at he
  simp only [register, allFeatures, if_pos rfl, List.mem_append]
  rcases he with ((((((h | h) | h) | h) | h) | h) | h)
  all_goals first
    | exact Or.inl (Or.inl (Or.inl (Or.inl (Or.inl (Or.inl (mem_of_mem_ite_nil h))))))
    | exact Or.inl (Or.inl (Or.inl (Or.inl (Or.inl (Or.inr (mem_of_mem_ite_nil h))))))
    | exact Or.inl (Or.inl (Or.inl (Or.inl (Or.inr (mem_of_mem_ite_nil h)))))
    | exact Or.inl (Or.inl (Or.inl (Or.inr (mem_of_mem_ite_nil h))))
    | exact Or.inl (Or.inl (Or.inr h))
    | exact Or.inl (Or.inr (mem_of_mem_ite_nil h))
    | exact Or.inr (mem_of_mem_ite_nil h)

/-- The all-features registry, written out. -/
def regAll : List (String × BuiltinFcn) :=
  [("base64.decode", (base64_decode, 1)),
   ("base64.encode", (base64_encode, 1)),
   ("base64.is_valid", (base64_is_valid, 1)),
   ("base64url.decode", (base64url_decode, 1)),
   ("base64url.encode", (base64url_encode, 1)),
   ("base64url.encode_no_pad", (base64url_encode_no_pad, 1)),
   ("hex.decode", (hex_decode, 1)),
   ("hex.encode", (hex_encode, 1)),
   ("urlquery.decode_object", (urlquery_decode_object, 1)),
   ("json.is_valid", (json_is_valid, 1)),
   ("json.marshal", (json_marshal, 1)),
   ("json.unmarshal", (json_unmarshal, 1)),
   ("json.match_schema", (json_match_schema, 2)),
   ("json.verify_schema", (json_verify_schema, 1)),
   ("yaml.is_valid", (yaml_is_valid, 1)),
   ("yaml.marshal", (yaml_marshal, 1)),
   ("yaml.unmarshal", (yaml_unmarshal, 1))]

theorem register_allFeatures_eq : register allFeatures = regAll := rfl

/-- In any registry, the declared arity of every entry is the count its
body passes to the argument-count check, and a wrong argument count is
reported as an ArityError naming the body's builtin name with the declared
expected count and the actual count. -/
theorem registry_arity (f : Features) (e : String × BuiltinFcn)
    (he : e ∈ register f) (args : List Value) (strict : Bool)
    (h : args.length ≠ e.2.2) :
    e.2.1 args strict =
      .error (.arityMismatch (bodyName e.1) e.2.2 args.length) := by
  have hl : e ∈ regAll := register_allFeatures_eq ▸ register_mem_all f e he
  simp only [regAll, List.mem_cons, List.not_mem_nil, or_false] at hl
  rcases hl with rfl | rfl | rfl | rfl | rfl | rfl | rfl | rfl | rfl | rfl | rfl |
    rfl | rfl | rfl | rfl | rfl | rfl
  · exact base64_decode_arity args strict h
  · exact base64_encode_arity args strict h
  · exact base64_is_valid_arity args strict h
  · exact base64url_decode_arity args strict h
  · exact base64url_encode_arity args strict h
  · exact base64url_encode_no_pad_arity args strict h
  · exact hex_decode_arity args strict h
  · exact hex_encode_arity args strict h
  · exact urlquery_decode_object_arity args strict h
  · exact json_is_valid_arity args strict h
  · exact json_marshal_arity args strict h
  · exact json_unmarshal_arity args strict h
  · exact json_match_schema_arity args strict h
  · exact json_verify_schema_arity args strict h
  · exact yaml_is_valid_arity args strict h
  · exact yaml_marshal_arity args strict h
  · exact yaml_unmarshal_arity args strict h

/-- Every registered entry declares arity 2 for `json.match_schema` and
arity 1 otherwise. -/
theorem registry_arity_values (f : Features) (e : String × BuiltinFcn)
    (he : e ∈ register f) :
    e.2.2 = if e.1 = "json.match_schema" then 2 else 1 := by
  have hl : e ∈ regAll := register_allFeatures_eq ▸ register_mem_all f e he
  simp only [regAll, List.mem_cons, List.not_mem_nil, or_false] at hl
  rcases hl with rfl | rfl | rfl | rfl | rfl | rfl | rfl | rfl | rfl | rfl | rfl |
    rfl | rfl | rfl | rfl | rfl | rfl <;> simp

/-! ## Base64 codec lemmas -/

theorem b64DecStd_chr : ∀ i < 64, b64DecStd (b64ChrStd i) = some i := by decide

theorem b64DecUrl_chr : ∀ i < 64, b64DecUrl (b64ChrUrl i) = some i := by decide

theorem b64ChrStd_ne_pad : ∀ i < 64, b64ChrStd i ≠ 61 := by decide

theorem b64ChrUrl_ne_pad : ∀ i < 64, b64ChrUrl i ≠ 61 := by decide

theorem b64Sextets_lt (bs : Bytes) (h : ∀ b ∈ bs, b < 256) :
    ∀ x ∈ b64Sextets bs, x < 64 := by
  induction bs using b64Sextets.induct with
  | case1 a b c rest ih =>
    intro x hx
    have ha : a < 256 := h a (by simp)
    have hb : b < 256 := h b (by simp)
    have hc : c < 256 := h c (by simp)
    simp only [b64Sextets, List.mem_cons] at hx
    rcases hx with rfl | rfl | rfl | rfl | hx
    · omega
    · omega
    · omega
    · omega
    · exact ih (fun y hy => h y (by simp [hy])) x hx
  | case2 a b =>
    intro x hx
    have ha : a < 256 := h a (by simp)
    have hb : b < 256 := h b (by simp)
    simp only [b64Sextets, List.mem_cons, List.not_mem_nil, or_false] at hx
    rcases hx with rfl | rfl | rfl <;> omega
  | case3 a =>
    intro x hx
    have ha : a < 256 := h a (by simp)
    simp only [b64Sextets, List.mem_cons, List.not_mem_nil, or_false] at hx
    rcases hx with rfl | rfl <;> omega
  | case4 => simp [b64Sextets]

theorem b64Bytes_sextets (bs : Bytes) (h : ∀ b ∈ bs, b < 256) :
    b64Bytes (b64Sextets bs) = some bs := by
  induction bs using b64Sextets.induct with
  | case1 a b c rest ih =>
    have ha : a < 256 := h a (by simp)
    have hb : b < 256 := h b (by simp)
    have hc : c < 256 := h c (by simp)
    have ih' := ih (fun y hy => h y (by simp [hy]))
    simp only [b64Sextets, b64Bytes, ih', Option.some.injEq, List.cons.injEq]
    refine ⟨by omega, by omega, by omega, trivial⟩
  | case2 a b =>
    have ha : a < 256 := h a (by simp)
    have hb : b < 256 := h b (by simp)
    simp only [b64Sextets, b64Bytes]
    rw [if_pos (by omega)]
    simp only [Option.some.injEq, List.cons.injEq]
    refine ⟨by omega, by omega, trivial⟩
  | case3 a =>
    have ha : a < 256 := h a (by simp)
    simp only [b64Sextets, b64Bytes]
    rw [if_pos (by omega)]
    simp only [Option.some.injEq, List.cons.injEq]
    refine ⟨by omega, trivial⟩
  | case4 => rfl

theorem decChars_map (dec : Nat → Option Nat) (chr : Nat → Nat) (l : List Nat)
    (h : ∀ x ∈ l, dec (chr x) = some x) : decChars dec (l.map chr) = some l := by
  induction l with
  | nil => rfl
  | cons x xs ih =>
    simp only [List.map_cons, decChars, h x (by simp),
      ih (fun y hy => h y (by simp [hy]))]

theorem b64Sextets_length (bs : Bytes) :
    (b64Sextets bs).length = bs.length + (bs.length + 2) / 3 := by
  induction bs using b64Sextets.induct with
  | case1 a b c rest ih => simp only [b64Sextets, List.length_cons, ih]; omega
  | case2 a b => simp [b64Sextets]
  | case3 a => simp [b64Sextets]
  | case4 => simp [b64Sextets]

theorem b64DecodeNoPad_encode (dec : Nat → Option Nat) (chr : Nat → Nat)
    (hinv : ∀ i < 64, dec (chr i) = some i) (bs : Bytes)
    (h : ∀ b ∈ bs, b < 256) :
    b64DecodeNoPad dec (b64EncodeNoPad chr bs) = some bs := by
  unfold b64DecodeNoPad b64EncodeNoPad
  rw [decChars_map dec chr _ (fun x hx => hinv x (b64Sextets_lt bs h x hx))]
  exact b64Bytes_sextets bs h

theorem dropWhile_replicate_append (p : Nat → Bool) (n : Nat) (x : Nat)
    (l : List Nat) (hx : p x = true) :
    List.dropWhile p (List.replicate n x ++ l) = List.dropWhile p l := by
  induction n with
  | zero => simp
  | succ n ih => simp [List.replicate_succ, List.dropWhile_cons, hx, ih]

theorem dropWhile_eq_self_of_ne (p : Nat → Bool) (l : List Nat)
    (h : ∀ c ∈ l, p c = false) : List.dropWhile p l = l := by
  cases l with
  | nil => rfl
  | cons c rest => simp [List.dropWhile_cons, h c (by simp)]

theorem dropTrailingEq_pad (body : Bytes) (n : Nat) (hb : ∀ c ∈ body, c ≠ 61) :
    dropTrailingEq (body ++ List.replicate n 61) = body := by
  unfold dropTrailingEq
  rw [List.reverse_append, List.reverse_replicate,
    dropWhile_replicate_append _ _ _ _ (by simp),
    dropWhile_eq_self_of_ne _ _ (by
      intro c hc
      simp only [List.mem_reverse] at hc
      simp [hb c hc]),
    List.reverse_reverse]

theorem b64DecodePad_encode (dec : Nat → Option Nat) (chr : Nat → Nat)
    (hinv : ∀ i < 64, dec (chr i) = some i) (hne : ∀ i < 64, chr i ≠ 61)
    (bs : Bytes) (h : ∀ b ∈ bs, b < 256) :
    b64DecodePad dec (b64EncodePad chr bs) = some bs := by
  unfold b64DecodePad b64EncodePad
  have hlt := b64Sextets_lt bs h
  have hchr : ∀ c ∈ (b64Sextets bs).map chr, c ≠ 61 := by
    intro c hc
    simp only [List.mem_map] at hc
    obtain ⟨x, hx, rfl⟩ := hc
    exact hne x (hlt x hx)
  have hdrop := dropTrailingEq_pad ((b64Sextets bs).map chr)
    ((4 - ((b64Sextets bs).map chr).length % 4) % 4) hchr
  have hslen := b64Sextets_length bs
  have hmaplen : ((b64Sextets bs).map chr).length = (b64Sextets bs).length :=
    List.length_map _ _
  rw [hdrop]
  rw [if_pos (by simp only [List.length_append, List.length_replicate]; omega)]
  rw [if_pos (by simp only [List.length_append, List.length_replicate]; omega)]
  rw [decChars_map dec chr _ (fun x hx => hinv x (hlt x hx))]
  exact b64Bytes_sextets bs h

theorem b64EncodePad_eq_noPad (chr : Nat → Nat) (bs : Bytes)
    (h : bs.length % 3 = 0) : b64EncodePad chr bs = b64EncodeNoPad chr bs := by
  unfold b64EncodePad b64EncodeNoPad
  have hl : ((b64Sextets bs).map chr).length % 4 = 0 := by
    rw [List.length_map, b64Sextets_length]; omega
  rw [hl]
  simp

theorem b64DecodePad_noPadEncode_none (dec : Nat → Option Nat) (chr : Nat → Nat)
    (bs : Bytes) (h : bs.length % 3 ≠ 0) :
    b64DecodePad dec (b64EncodeNoPad chr bs) = none := by
  unfold b64DecodePad b64EncodeNoPad
  rw [if_neg]
  rw [List.length_map, b64Sextets_length]
  omega

/-! ## Hex codec lemmas -/

theorem hexVal_chr : ∀ d < 16, hexVal (hexChr d) = some d := by decide

theorem hexDecode_encode (bs : Bytes) (h : ∀ b ∈ bs, b < 256) :
    hexDecode (hexEncode bs) = some bs := by
  induction bs with
  | nil => rfl
  | cons b rest ih =>
    have hb : b < 256 := h b (by simp)
    simp only [hexEncode, hexDecode, hexVal_chr (b / 16) (by omega),
      hexVal_chr (b % 16) (by omega), ih (fun y hy => h y (by simp [hy]))]
    simp only [Option.some.injEq, List.cons.injEq]
    refine ⟨by omega, trivial⟩

/-- C7: for every string input `b` (a sequence of bytes), decoding the
encoding of `b` succeeds and returns `b`, for Base64 (padded), Base64URL
(padded `encode` and unpadded `encode_no_pad`, both decoded by
`base64url.decode`), and Hex. -/
theorem encode_decode_roundtrip (b : Bytes) (h : ∀ x ∈ b, x < 256)
    (strict : Bool) :
    (base64_encode [.String b] strict = .ok (.String (b64EncodePad b64ChrStd b)) ∧
      base64_decode [.String (b64EncodePad b64ChrStd b)] strict = .ok (.String b)) ∧
    (base64url_encode [.String b] strict = .ok (.String (b64EncodePad b64ChrUrl b)) ∧
      base64url_decode [.String (b64EncodePad b64ChrUrl b)] strict = .ok (.String b)) ∧
    (base64url_encode_no_pad [.String b] strict =
        .ok (.String (b64EncodeNoPad b64ChrUrl b)) ∧
      base64url_decode [.String (b64EncodeNoPad b64ChrUrl b)] strict = .ok (.String b)) ∧
    (hex_encode [.String b] strict = .ok (.String (hexEncode b)) ∧
      hex_decode [.String (hexEncode b)] strict = .ok (.String b)) := by
  refine ⟨⟨?_, ?_⟩, ⟨?_, ?_⟩, ⟨?_, ?_⟩, ⟨?_, ?_⟩⟩
  · simp [base64_encode, ensure_args_count, ensure_string]
  · simp [base64_decode, ensure_args_count, ensure_string,
      b64DecodePad_encode b64DecStd b64ChrStd b64DecStd_chr b64ChrStd_ne_pad b h]
  · simp [base64url_encode, ensure_args_count, ensure_string]
  · simp [base64url_decode, ensure_args_count, ensure_string,
      b64DecodePad_encode b64DecUrl b64ChrUrl b64DecUrl_chr b64ChrUrl_ne_pad b h]
  · simp [base64url_encode_no_pad, ensure_args_count, ensure_string]
  · by_cases h3 : b.length % 3 = 0
    · rw [← b64EncodePad_eq_noPad b64ChrUrl b h3]
      simp [base64url_decode, ensure_args_count, ensure_string,
        b64DecodePad_encode b64DecUrl b64ChrUrl b64DecUrl_chr b64ChrUrl_ne_pad b h]
    · simp [base64url_decode, ensure_args_count, ensure_string,
        b64DecodePad_noPadEncode_none b64DecUrl b64ChrUrl b h3,
        b64DecodeNoPad_encode b64DecUrl b64ChrUrl b64DecUrl_chr b h]
  · simp [hex_encode, ensure_args_count, ensure_string]
  · simp [hex_decode, ensure_args_count, ensure_string, hexDecode_encode b h]

theorem encode_decode_roundtrip_witness :
    base64_decode [.String (b64EncodePad b64ChrStd (sb "OK"))] true =
      .ok (.String (sb "OK")) :=
  ((encode_decode_roundtrip (sb "OK") (by decide) true).1).2

/-- C6: `base64url.decode` accepts both the padded and the unpadded
URL-safe encoding of any payload and decodes both to the payload's bytes;
it attempts the padded URL-safe decode first, retries with the unpadded
variant only when that fails, and reports failure only when both fail. -/
theorem base64url_decode_both_variants (p : Bytes) (hp : ∀ x ∈ p, x < 256)
    (strict : Bool) :
    (base64url_decode [.String (b64EncodePad b64ChrUrl p)] strict = .ok (.String p) ∧
      base64url_decode [.String (b64EncodeNoPad b64ChrUrl p)] strict = .ok (.String p)) ∧
    (∀ s b, b64DecodePad b64DecUrl s = some b →
      base64url_decode [.String s] strict = .ok (.String b)) ∧
    (∀ s b, b64DecodePad b64DecUrl s = none → b64DecodeNoPad b64DecUrl s = some b →
      base64url_decode [.String s] strict = .ok (.String b)) ∧
    (∀ s, b64DecodePad b64DecUrl s = none → b64DecodeNoPad b64DecUrl s = none →
      base64url_decode [.String s] strict =
        .error (.callError (sb "invalid base64url"))) := by
  refine ⟨⟨?_, ?_⟩, ?_, ?_, ?_⟩
  · simp [base64url_decode, ensure_args_count, ensure_string,
      b64DecodePad_encode b64DecUrl b64ChrUrl b64DecUrl_chr b64ChrUrl_ne_pad p hp]
  · by_cases h3 : p.length % 3 = 0
    · rw [← b64EncodePad_eq_noPad b64ChrUrl p h3]
      simp [base64url_decode, ensure_args_count, ensure_string,
        b64DecodePad_encode b64DecUrl b64ChrUrl b64DecUrl_chr b64ChrUrl_ne_pad p hp]
    · simp [base64url_decode, ensure_args_count, ensure_string,
        b64DecodePad_noPadEncode_none b64DecUrl b64ChrUrl p h3,
        b64DecodeNoPad_encode b64DecUrl b64ChrUrl b64DecUrl_chr p hp]
  · intro s b hs
    simp [base64url_decode, ensure_args_count, ensure_string, hs]
  · intro s b hs hn
    simp [base64url_decode, ensure_args_count, ensure_string, hs, hn]
  · intro s hs hn
    simp [base64url_decode, ensure_args_count, ensure_string, hs, hn]

theorem base64url_decode_both_variants_witness :
    base64url_decode [.String (b64EncodeNoPad b64ChrUrl (sb "Hi"))] true =
      .ok (.String (sb "Hi")) :=
  ((base64url_decode_both_variants (sb "Hi") (by decide) true).1).2

/-- C8: `base64.is_valid` returns true exactly when `base64.decode`
succeeds; neither panics on the empty string, where `is_valid` returns
true and `decode` returns the empty string. -/
theorem base64_is_valid_iff_decode (s : Bytes) (strict : Bool) :
    (base64_is_valid [.String s] strict = .ok (.Bool true) ↔
      ∃ t, base64_decode [.String s] strict = .ok (.String t)) ∧
    base64_is_valid [.String []] strict = .ok (.Bool true) ∧
    base64_decode [.String []] strict = .ok (.String []) := by
  refine ⟨?_, ?_, ?_⟩
  · cases hd : b64DecodePad b64DecStd s with
    | some t =>
      simp [base64_is_valid, base64_decode, ensure_args_count, ensure_string, hd]
    | none =>
      simp [base64_is_valid, base64_decode, ensure_args_count, ensure_string, hd]
  · simp [base64_is_valid, ensure_args_count, ensure_string]
    rfl
  · simp [base64_decode, ensure_args_count, ensure_string]
    rfl

/-! ## Lexicographic byte-order toolbox -/

theorem bytesCmp_self (a : Bytes) : bytesCmp a a = .eq := by
  induction a with
  | nil => rfl
  | cons x xs ih => simp [bytesCmp, Nat.compare_eq_eq.mpr rfl, ih]

theorem bytesCmp_eq_iff (a b : Bytes) : bytesCmp a b = .eq ↔ a = b := by
  induction a generalizing b with
  | nil => cases b <;> simp [bytesCmp]
  | cons x xs ih =>
    cases b with
    | nil => simp [bytesCmp]
    | cons y ys =>
      simp only [bytesCmp]
      cases hc : compare x y with
      | eq =>
        have hxy : x = y := Nat.compare_eq_eq.mp hc
        simp [hxy, ih]
      | lt =>
        have hxy : x < y := Nat.compare_eq_lt.mp hc
        simp only [List.cons.injEq]
        constructor
        · intro h; exact absurd h (by simp)
        · rintro ⟨rfl, rfl⟩; omega
      | gt =>
        have hxy : y < x := Nat.compare_eq_gt.mp hc
        simp only [List.cons.injEq]
        constructor
        · intro h; exact absurd h (by simp)
        · rintro ⟨rfl, rfl⟩; omega

theorem bytesCmp_gt_iff (a b : Bytes) : bytesCmp a b = .gt ↔ bytesCmp b a = .lt := by
  induction a generalizing b with
  | nil => cases b <;> simp [bytesCmp]
  | cons x xs ih =>
    cases b with
    | nil => simp [bytesCmp]
    | cons y ys =>
      simp only [bytesCmp]
      cases hc : compare x y with
      | eq =>
        have hxy : x = y := Nat.compare_eq_eq.mp hc
        subst hxy
        rw [Nat.compare_eq_eq.mpr rfl]
        exact ih ys
      | lt =>
        have hxy : x < y := Nat.compare_eq_lt.mp hc
        rw [Nat.compare_eq_gt.mpr hxy]
        simp
      | gt =>
        have hxy : y < x := Nat.compare_eq_gt.mp hc
        rw [Nat.compare_eq_lt.mpr hxy]
        simp

theorem bytesCmp_lt_trans {a b c : Bytes} (h1 : bytesCmp a b = .lt)
    (h2 : bytesCmp b c = .lt) : bytesCmp a c = .lt := by
  induction a generalizing b c with
  | nil =>
    cases b with
    | nil => simp [bytesCmp] at h1
    | cons y ys => cases c with
      | nil => simp [bytesCmp] at h2
      | cons z zs => simp [bytesCmp]
  | cons x xs ih =>
    cases b with
    | nil => simp [bytesCmp] at h1
    | cons y ys =>
      cases c with
      | nil => simp [bytesCmp] at h2
      | cons z zs =>
        simp only [bytesCmp] at h1 h2 ⊢
        cases hxy : compare x y with
        | lt =>
          have h1' : x < y := Nat.compare_eq_lt.mp hxy
          cases hyz : compare y z with
          | lt =>
            have h2' : y < z := Nat.compare_eq_lt.mp hyz
            rw [Nat.compare_eq_lt.mpr (by omega)]
          | eq =>
            have h2' : y = z := Nat.compare_eq_eq.mp hyz
            rw [Nat.compare_eq_lt.mpr (by omega)]
          | gt => rw [hyz] at h2; simp at h2
        | eq =>
          have h1' : x = y := Nat.compare_eq_eq.mp hxy
          rw [hxy] at h1
          cases hyz : compare y z with
          | lt =>
            have h2' : y < z := Nat.compare_eq_lt.mp hyz
            rw [Nat.compare_eq_lt.mpr (by omega)]
          | eq =>
            have h2' : y = z := Nat.compare_eq_eq.mp hyz
            rw [hyz] at h2
            rw [Nat.compare_eq_eq.mpr (by omega)]
            exact ih h1 h2
          | gt => rw [hyz] at h2; simp at h2
        | gt => rw [hxy] at h1; simp at h1

theorem cmp_string_string (a b : Bytes) :
    Value.cmp (.String a) (.String b) = bytesCmp a b := rfl

/-! ## Sorted-map lemmas -/

/-- Strict key order between adjacent object members. -/
def keyLt (p q : Value × Value) : Prop := Value.cmp p.1 q.1 = .lt

/-- All keys of an association list are strings. -/
def strKeys (m : List (Value × Value)) : Prop :=
  ∀ p ∈ m, ∃ kb, p.1 = Value.String kb

theorem mapGet_none_of_lt_all (kb : Bytes) (m : List (Value × Value))
    (h : ∀ p ∈ m, ∃ pb, p.1 = Value.String pb ∧ bytesCmp kb pb = .lt) :
    mapGet (.String kb) m = none := by
  induction m with
  | nil => rfl
  | cons q rest ih =>
    obtain ⟨k', v'⟩ := q
    obtain ⟨pb, hp1, hlt⟩ := h (k', v') (by simp)
    simp only at hp1
    subst hp1
    simp only [mapGet, cmp_string_string, hlt]
    rw [if_neg (by simp)]
    exact ih (fun p hp => h p (by simp [hp]))

theorem mapAppendAt_keys (k v : Value) (m : List (Value × Value)) :
    ∀ p ∈ mapAppendAt k v m, p.1 = k ∨ ∃ q ∈ m, p.1 = q.1 := by
  induction m with
  | nil =>
    intro p hp
    simp only [mapAppendAt, List.mem_singleton] at hp
    subst hp
    exact Or.inl rfl
  | cons q rest ih =>
    intro p hp
    obtain ⟨k', v'⟩ := q
    simp only [mapAppendAt] at hp
    cases hc : Value.cmp k (k', v').1 with
    | lt =>
      rw [hc] at hp
      simp only [List.mem_cons] at hp
      rcases hp with rfl | rfl | hp
      · exact Or.inl rfl
      · exact Or.inr ⟨(k', v'), by simp⟩
      · exact Or.inr ⟨p, by simp [hp]⟩
    | eq =>
      rw [hc] at hp
      simp only [List.mem_cons] at hp
      rcases hp with rfl | hp
      · exact Or.inr ⟨(k', v'), by simp⟩
      · exact Or.inr ⟨p, by simp [hp]⟩
    | gt =>
      rw [hc] at hp
      simp only [List.mem_cons] at hp
      rcases hp with rfl | hp
      · exact Or.inr ⟨(k', v'), by simp⟩
      · rcases ih p hp with h1 | ⟨q, hq, h2⟩
        · exact Or.inl h1
        · exact Or.inr ⟨q, by simp [hq], h2⟩

theorem mapAppendAt_inv (kb : Bytes) (v : Value) (m : List (Value × Value))
    (hstr : strKeys m) (hpw : List.Pairwise keyLt m) :
    strKeys (mapAppendAt (.String kb) v m) ∧
      List.Pairwise keyLt (mapAppendAt (.String kb) v m) := by
  induction m with
  | nil =>
    constructor
    · intro p hp
      simp only [mapAppendAt, List.mem_singleton] at hp
      subst hp
      exact ⟨kb, rfl⟩
    · simp [mapAppendAt]
  | cons q rest ih =>
    obtain ⟨k', v'⟩ := q
    obtain ⟨qb, hq⟩ := hstr (k', v') (by simp)
    simp only at hq
    subst hq
    have hstr' : strKeys rest := fun p hp => hstr p (by simp [hp])
    have hpw' : List.Pairwise keyLt rest := (List.pairwise_cons.mp hpw).2
    have hhead : ∀ p ∈ rest, keyLt (Value.String qb, v') p :=
      (List.pairwise_cons.mp hpw).1
    simp only [mapAppendAt, cmp_string_string]
    cases hc : bytesCmp kb qb with
    | lt =>
      constructor
      · intro p hp
        simp only [List.mem_cons] at hp
        rcases hp with rfl | rfl | hp
        · exact ⟨kb, rfl⟩
        · exact ⟨qb, rfl⟩
        · exact hstr' p hp
      · refine List.pairwise_cons.mpr ⟨?_, hpw⟩
        intro p hp
        simp only [List.mem_cons] at hp
        rcases hp with rfl | hp
        · simp only [keyLt, cmp_string_string]; exact hc
        · obtain ⟨pb, hpb⟩ := hstr' p hp
          have h1 : keyLt (Value.String qb, v') p := hhead p hp
          simp only [keyLt, hpb, cmp_string_string] at h1 ⊢
          exact bytesCmp_lt_trans hc h1
    | eq =>
      constructor
      · intro p hp
        simp only [List.mem_cons] at hp
        rcases hp with rfl | hp
        · exact ⟨qb, rfl⟩
        · exact hstr' p hp
      · refine List.pairwise_cons.mpr ⟨?_, hpw'⟩
        intro p hp
        exact hhead p hp
    | gt =>
      obtain ⟨ihs, ihp⟩ := ih hstr' hpw'
      constructor
      · intro p hp
        simp only [List.mem_cons] at hp
        rcases hp with rfl | hp
        · exact ⟨qb, rfl⟩
        · exact ihs p hp
      · refine List.pairwise_cons.mpr ⟨?_, ihp⟩
        intro p hp
        rcases mapAppendAt_keys (.String kb) v rest p hp with h1 | ⟨q, hq, h2⟩
        · simp only [keyLt, h1, cmp_string_string]
          exact (bytesCmp_gt_iff kb qb).mp hc
        · have := hhead q hq
          simp only [keyLt, h2] at this ⊢
          exact this

theorem mapGet_appendAt_other (kb bb : Bytes) (v : Value)
    (m : List (Value × Value)) (hne : kb ≠ bb) (hstr : strKeys m) :
    mapGet (.String kb) (mapAppendAt (.String bb) v m) =
      mapGet (.String kb) m := by
  induction m with
  | nil =>
    simp only [mapAppendAt, mapGet, cmp_string_string]
    rw [if_neg (by
      intro h
      exact hne ((bytesCmp_eq_iff kb bb).mp h))]
  | cons q rest ih =>
    obtain ⟨k', v'⟩ := q
    obtain ⟨qb, hq⟩ := hstr (k', v') (by simp)
    simp only at hq
    subst hq
    have hstr' : strKeys rest := fun p hp => hstr p (by simp [hp])
    simp only [mapAppendAt, cmp_string_string]
    cases hc : bytesCmp bb qb with
    | lt =>
      simp only [mapGet, cmp_string_string]
      rw [if_neg (by
        intro h
        exact hne ((bytesCmp_eq_iff kb bb).mp h))]
    | eq =>
      have hq2 : bb = qb := (bytesCmp_eq_iff bb qb).mp hc
      subst hq2
      simp only [mapGet, cmp_string_string]
      rw [if_neg (by
        intro h
        exact hne ((bytesCmp_eq_iff kb bb).mp h)),
        if_neg (by
        intro h
        exact hne ((bytesCmp_eq_iff kb bb).mp h))]
    | gt =>
      simp only [mapGet, cmp_string_string]
      by_cases hk : bytesCmp kb qb = .eq
      · rw [if_pos (by simp [hk]), if_pos (by simp [hk])]
      · rw [if_neg (by simpa using hk), if_neg (by simpa using hk)]
        exact ih hstr'

theorem mapGet_appendAt_same (kb : Bytes) (v : Value)
    (m : List (Value × Value)) (hstr : strKeys m)
    (hpw : List.Pairwise keyLt m) :
    mapGet (.String kb) (mapAppendAt (.String kb) v m) =
      some (match mapGet (.String kb) m with
            | none => Value.Array [v]
            | some w => pushArr w v) := by
  induction m with
  | nil =>
    simp only [mapAppendAt, mapGet, cmp_string_string, bytesCmp_self]
    simp
  | cons q rest ih =>
    obtain ⟨k', v'⟩ := q
    obtain ⟨qb, hq⟩ := hstr (k', v') (by simp)
    simp only at hq
    subst hq
    have hstr' : strKeys rest := fun p hp => hstr p (by simp [hp])
    have hpw' : List.Pairwise keyLt rest := (List.pairwise_cons.mp hpw).2
    have hhead : ∀ p ∈ rest, keyLt (Value.String qb, v') p :=
      (List.pairwise_cons.mp hpw).1
    simp only [mapAppendAt, cmp_string_string]
    cases hc : bytesCmp kb qb with
    | lt =>
      have hrest : mapGet (.String kb) ((Value.String qb, v') :: rest) = none := by
        apply mapGet_none_of_lt_all
        intro p hp
        simp only [List.mem_cons] at hp
        rcases hp with rfl | hp
        · exact ⟨qb, rfl, hc⟩
        · obtain ⟨pb, hpb⟩ := hstr' p hp
          have h1 := hhead p hp
          simp only [keyLt, hpb, cmp_string_string] at h1
          exact ⟨pb, hpb, bytesCmp_lt_trans hc h1⟩
      rw [hrest]
      simp only [mapGet, cmp_string_string, bytesCmp_self]
      simp
    | eq =>
      have hq2 : kb = qb := (bytesCmp_eq_iff kb qb).mp hc
      subst hq2
      simp only [mapGet, cmp_string_string, bytesCmp_self]
      simp
    | gt =>
      have hne : ¬ bytesCmp kb qb = Ordering.eq := by simp [hc]
      simp only [mapGet, cmp_string_string]
      rw [if_neg hne, if_neg hne]
      exact ih hstr' hpw'

theorem queryObj_append (ps : List (Bytes × Bytes)) (p : Bytes × Bytes) :
    queryObj (ps ++ [p]) = mapAppendAt (.String p.1) (.String p.2) (queryObj ps) := by
  simp [queryObj, List.foldl_append]

theorem queryObj_spec (ps : List (Bytes × Bytes)) :
    strKeys (queryObj ps) ∧ List.Pairwise keyLt (queryObj ps) ∧
    ∀ kb, mapGet (.String kb) (queryObj ps) =
      (if ((ps.filter (fun pr => pr.1 = kb)).map Prod.snd) = [] then none
       else some (.Array (((ps.filter (fun pr => pr.1 = kb)).map Prod.snd).map
         Value.String))) := by
  induction ps using List.reverseRecOn with
  | nil =>
    refine ⟨?_, ?_, ?_⟩
    · intro p hp
      simp [queryObj] at hp
    · simp [queryObj]
    · intro kb
      simp [queryObj, mapGet]
  | append_singleton ps p ih =>
    obtain ⟨hstr, hpw, hget⟩ := ih
    rw [queryObj_append]
    refine ⟨(mapAppendAt_inv p.1 (.String p.2) _ hstr hpw).1,
      (mapAppendAt_inv p.1 (.String p.2) _ hstr hpw).2, ?_⟩
    intro kb
    by_cases hk : p.1 = kb
    · subst hk
      rw [mapGet_appendAt_same p.1 (.String p.2) _ hstr hpw, hget p.1]
      by_cases hfe : ((ps.filter (fun pr => pr.1 = p.1)).map Prod.snd) = []
      · rw [if_pos hfe]
        simp [List.filter_append, hfe]
      · rw [if_neg hfe]
        simp only [pushArr, List.filter_append, List.map_append]
        rw [if_neg (by simp)]
        simp [hfe]
    · have hfp : List.filter (fun pr => decide (pr.1 = kb)) [p] = [] := by
        simp [hk]
      rw [mapGet_appendAt_other kb p.1 (.String p.2) _ (fun h => hk h.symm) hstr,
        hget kb, List.filter_append, hfp, List.append_nil]

/-- C5: `urlquery.decode_object("a=1&a=2&b=3")` yields the object mapping
`"a"` to `["1","2"]` and `"b"` to `["3"]` with `"a"` before `"b"`; for
every query string the result object's key order is strictly ascending in
the `Value` order, which on the string keys is lexicographic byte order,
and the array stored under each key lists that key's values in the order
encountered in the query string. -/
theorem urlquery_decode_object_spec :
    (urlquery_decode_object [.String (sb "a=1&a=2&b=3")] true =
      .ok (.Object
        [(.String (sb "a"), .Array [.String (sb "1"), .String (sb "2")]),
         (.String (sb "b"), .Array [.String (sb "3")])])) ∧
    (∀ a b : Bytes, Value.cmp (.String a) (.String b) = bytesCmp a b) ∧
    (∀ (q : Bytes) (strict : Bool),
      urlquery_decode_object [.String q] strict =
        .ok (.Object (queryObj (queryPairs q))) ∧
      strKeys (queryObj (queryPairs q)) ∧
      List.Pairwise keyLt (queryObj (queryPairs q)) ∧
      ∀ kb, mapGet (.String kb) (queryObj (queryPairs q)) =
        (if (((queryPairs q).filter (fun pr => pr.1 = kb)).map Prod.snd) = []
         then none
         else some (.Array ((((queryPairs q).filter
           (fun pr => pr.1 = kb)).map Prod.snd).map Value.String)))) := by
  refine ⟨rfl, fun a b => rfl, fun q strict => ?_⟩
  obtain ⟨h1, h2, h3⟩ := queryObj_spec (queryPairs q)
  exact ⟨by simp [urlquery_decode_object, ensure_args_count, ensure_string],
    h1, h2, h3⟩

/-! ## Schema claim theorems -/

/-- Whether `pat` is a leading run of `l`. -/
def leadsWith : Bytes → Bytes → Bool
  | [], _ => true
  | _ :: _, [] => false
  | p :: ps, c :: cs => p = c && leadsWith ps cs

/-- Whether `pat` occurs contiguously anywhere inside `l`. -/
def hasSub (pat : Bytes) : Bytes → Bool
  | [] => leadsWith pat []
  | c :: rest => leadsWith pat (c :: rest) || hasSub pat rest

/-- C1: when schema compilation fails, `json.verify_schema` raises a call
error whose message begins with "invalid schema: " in strict mode and
returns `[false, error-text]` without raising otherwise; when compilation
succeeds it returns `[true, null]`. -/
theorem json_verify_schema_dual_mode (arg : Value) (strict : Bool) :
    (∀ e, compile_json_schema arg = .error e →
      json_verify_schema [arg] strict =
        (if strict then .error (.callError (sb "invalid schema: " ++ e))
         else .ok (.Array [.Bool false, .String e]))) ∧
    (∀ s, compile_json_schema arg = .ok s →
      json_verify_schema [arg] strict = .ok (.Array [.Bool true, .Null])) := by
  constructor
  · intro e he
    simp [json_verify_schema, ensure_args_count, he]
  · intro s hs
    simp [json_verify_schema, ensure_args_count, hs]

theorem json_verify_schema_dual_mode_witness :
    json_verify_schema [.String (sb "oops")] true =
      .error (.callError (sb "invalid schema: " ++ sb "not a valid json schema")) := by
  simpa using (json_verify_schema_dual_mode (.String (sb "oops")) true).1
    (sb "not a valid json schema") rfl

theorem schemaCheck_msgs (s : Value) (msg : Bytes) (h : schemaCheck s = some msg) :
    msg = sb "invalid value for type keyword" ∨
      msg = sb "schema must be an object or boolean" := by
  cases s
  case Bool b => simp [schemaCheck] at h
  case Object ps =>
    simp only [schemaCheck] at h
    cases hg : mapGet (.String (sb "type")) ps with
    | none => rw [hg] at h; simp at h
    | some w =>
      rw [hg] at h
      cases w
      case String t =>
        by_cases hv : validTypeName t
        · simp [hv] at h
        · simp only [hv, if_false, Bool.false_eq_true, Option.some.injEq] at h
          exact Or.inl h.symm
      all_goals exact Or.inl (Option.some.inj h).symm
  all_goals exact Or.inr (Option.some.inj h).symm

/-- C9 counterexample: the non-string schema input with member
`"type": 5` re-serializes to valid JSON text and fails schema compilation,
yet the failure carries the schema compiler's own message, which does not
contain "not a valid json schema". -/
theorem compile_json_schema_counterexample :
    compile_json_schema (.Object [(.String (sb "type"), .Number 5)]) =
      .error (sb "invalid value for type keyword") ∧
    hasSub (sb "not a valid json schema") (sb "invalid value for type keyword") =
      false :=
  ⟨rfl, by decide⟩

/-- C9 (amended): schema compilation fails citing "not a valid json
schema" exactly when the schema text (the string argument itself, or the
JSON re-serialization of a non-string argument) does not parse as JSON;
when the text parses but the compiler rejects the schema document, the
failure carries the compiler's own message, which does not contain the
phrase. -/
theorem compile_json_schema_amended (arg : Value) (t : Bytes)
    (ht : schemaText arg = some t) :
    (compile_json_schema arg = .error (sb "not a valid json schema") ↔
      jsonParse t = none) ∧
    (∀ schema, jsonParse t = some schema →
      ∀ e, compile_json_schema arg = .error e →
        hasSub (sb "not a valid json schema") e = false) := by
  constructor
  · constructor
    · intro h
      cases hp : jsonParse t with
      | none => rfl
      | some schema =>
        cases hc : schemaCheck schema with
        | none =>
          have h2 : compile_json_schema arg = .ok schema := by
            unfold compile_json_schema
            rw [ht]
            simp only [hp, hc]
          rw [h2] at h
          simp at h
        | some msg =>
          have h2 : compile_json_schema arg = .error msg := by
            unfold compile_json_schema
            rw [ht]
            simp only [hp, hc]
          rw [h2] at h
          have hm : msg = sb "not a valid json schema" := Except.error.inj h
          rcases schemaCheck_msgs schema msg hc with h1 | h1 <;>
            · rw [h1] at hm
              exact absurd hm (by decide)
    · intro h
      unfold compile_json_schema
      rw [ht]
      simp only [h]
  · intro schema hp e he
    cases hc : schemaCheck schema with
    | none =>
      have h2 : compile_json_schema arg = .ok schema := by
        unfold compile_json_schema
        rw [ht]
        simp only [hp, hc]
      rw [h2] at he
      simp at he
    | some msg =>
      have h2 : compile_json_schema arg = .error msg := by
        unfold compile_json_schema
        rw [ht]
        simp only [hp, hc]
      rw [h2] at he
      have hem : e = msg := (Except.error.inj he).symm
      subst hem
      rcases schemaCheck_msgs schema e hc with rfl | rfl
      · decide
      · decide

theorem compile_json_schema_amended_witness :
    (compile_json_schema (.String (sb "]")) =
        .error (sb "not a valid json schema") ↔
      jsonParse (sb "]") = none) :=
  (compile_json_schema_amended (.String (sb "]")) (sb "]") rfl).1

/-- C3 (code-bug evidence): a wrong argument count always fails with an
ArityError carrying the declared expected count and the actual count
before any type check, but the builtin name the error carries for the
entry registered as `urlquery.decode_object` is `"urlquery.encode"` (the
body's copy-pasted `name`), not the registered name; every other entry's
error names the registered builtin. -/
theorem arity_error_naming (f : Features) :
    (∀ e ∈ register f, ∀ (args : List Value) (strict : Bool),
      args.length ≠ e.2.2 →
        e.2.1 args strict =
          .error (.arityMismatch (bodyName e.1) e.2.2 args.length)) ∧
    (∀ e ∈ register f, e.1 ≠ "urlquery.decode_object" → bodyName e.1 = e.1) ∧
    urlquery_decode_object [] true =
      .error (.arityMismatch "urlquery.encode" 1 0) ∧
    ("urlquery.encode" : String) ≠ "urlquery.decode_object" ∧
    ("urlquery.decode_object", ((urlquery_decode_object, 1) : BuiltinFcn)) ∈
      register allFeatures := by
  refine ⟨fun e he args strict h => registry_arity f e he args strict h,
    fun e _ hne => by simp [bodyName, hne],
    urlquery_decode_object_arity [] true (by simp),
    by decide,
    by rw [register_allFeatures_eq]; simp [regAll]⟩

theorem arity_error_naming_witness :
    base64_decode [] true = .error (.arityMismatch "base64.decode" 1 0) :=
  (arity_error_naming allFeatures).1 ("base64.decode", (base64_decode, 1))
    (by rw [register_allFeatures_eq]; simp [regAll]) [] true (by simp)

/-- C10: every registry entry's declared arity equals the count its body
enforces through the argument-count check — 2 for `json.match_schema`
and 1 for every other entry — and a registry with the base64url feature
enabled contains `base64url.encode_no_pad` with arity 1, whose body
produces the unpadded URL-safe encoding. -/
theorem registry_arities_and_encode_no_pad (f : Features) :
    (∀ e ∈ register f, e.2.2 = if e.1 = "json.match_schema" then 2 else 1) ∧
    (∀ e ∈ register f, ∀ (args : List Value) (strict : Bool),
      args.length ≠ e.2.2 →
        e.2.1 args strict =
          .error (.arityMismatch (bodyName e.1) e.2.2 args.length)) ∧
    (f.base64url = true →
      ("base64url.encode_no_pad",
        ((base64url_encode_no_pad, 1) : BuiltinFcn)) ∈ register f) ∧
    (∀ (s : Bytes) (strict : Bool),
      base64url_encode_no_pad [.String s] strict =
        .ok (.String (b64EncodeNoPad b64ChrUrl s))) := by
  refine ⟨fun e he => registry_arity_values f e he,
    fun e he args strict h => registry_arity f e he args strict h,
    fun hurl => by simp [register, hurl],
    fun s strict => by
      simp [base64url_encode_no_pad, ensure_args_count, ensure_string]⟩

theorem registry_arities_and_encode_no_pad_witness :
    ("base64url.encode_no_pad",
      ((base64url_encode_no_pad, 1) : BuiltinFcn)) ∈ register allFeatures :=
  (registry_arities_and_encode_no_pad allFeatures).2.2.1 rfl

/-! ## Decimal digit lemmas -/

/-- Value of a least-significant-first digit list. -/
def lsbVal : Bytes → Nat
  | [] => 0
  | c :: cs => (c - 48) + 10 * lsbVal cs

theorem natDigitsRevAux_spec (f : Nat) :
    ∀ n, n ≤ f → lsbVal (natDigitsRevAux f n) = n ∧
      ∀ c ∈ natDigitsRevAux f n, 48 ≤ c ∧ c ≤ 57 := by
  induction f with
  | zero =>
    intro n hn
    have : n = 0 := by omega
    subst this
    exact ⟨rfl, by simp [natDigitsRevAux]⟩
  | succ f ih =>
    intro n hn
    by_cases h0 : n = 0
    · subst h0
      simp [natDigitsRevAux, lsbVal]
    · have hd : n / 10 ≤ f := by omega
      obtain ⟨ihv, ihd⟩ := ih (n / 10) hd
      constructor
      · simp only [natDigitsRevAux, h0, if_false, lsbVal, ihv]
        omega
      · intro c hc
        simp only [natDigitsRevAux, h0, if_false, List.mem_cons] at hc
        rcases hc with rfl | hc
        · omega
        · exact ihd c hc

theorem natBytes_digits (n : Nat) : ∀ c ∈ natBytes n, 48 ≤ c ∧ c ≤ 57 := by
  unfold natBytes
  by_cases h0 : n = 0
  · simp [h0]
  · rw [if_neg h0]
    intro c hc
    exact (natDigitsRevAux_spec n n (le_refl n)).2 c (List.mem_reverse.mp hc)

theorem natBytes_ne_nil (n : Nat) : natBytes n ≠ [] := by
  unfold natBytes
  by_cases h0 : n = 0
  · simp [h0]
  · rw [if_neg h0]
    intro h
    have h2 : lsbVal (natDigitsRevAux n n) = n :=
      (natDigitsRevAux_spec n n (le_refl n)).1
    unfold natDigitsRev at h
    rw [List.reverse_eq_nil_iff] at h
    rw [h] at h2
    simp [lsbVal] at h2
    omega

theorem digitsToNat_append (l : Bytes) (c : Nat) :
    digitsToNat (l ++ [c]) = digitsToNat l * 10 + (c - 48) := by
  simp [digitsToNat, List.foldl_append]

theorem digitsToNat_reverse (l : Bytes) : digitsToNat l.reverse = lsbVal l := by
  induction l with
  | nil => rfl
  | cons c cs ih =>
    simp only [List.reverse_cons, digitsToNat_append, ih, lsbVal]
    omega

theorem digitsToNat_natBytes (n : Nat) : digitsToNat (natBytes n) = n := by
  unfold natBytes
  by_cases h0 : n = 0
  · simp [h0, digitsToNat]
  · rw [if_neg h0, digitsToNat_reverse]
    exact (natDigitsRevAux_spec n n (le_refl n)).1

theorem takeWhile_append_all (p : Nat → Bool) (l r : Bytes)
    (h : ∀ x ∈ l, p x = true) :
    List.takeWhile p (l ++ r) = l ++ List.takeWhile p r := by
  induction l with
  | nil => simp
  | cons c cs ih =>
    simp only [List.cons_append, List.takeWhile_cons, h c (by simp)]
    rw [ih (fun x hx => h x (by simp [hx]))]
    simp

theorem dropWhile_append_all (p : Nat → Bool) (l r : Bytes)
    (h : ∀ x ∈ l, p x = true) :
    List.dropWhile p (l ++ r) = List.dropWhile p r := by
  induction l with
  | nil => simp
  | cons c cs ih =>
    simp only [List.cons_append, List.dropWhile_cons, h c (by simp)]
    exact ih (fun x hx => h x (by simp [hx]))

/-- The byte after a serialized number must not be a digit. -/
def digitBoundary : Bytes → Prop
  | [] => True
  | c :: _ => isDigit c = false

theorem parseNat_natBytes (n : Nat) (rest : Bytes) (hb : digitBoundary rest) :
    parseNat (natBytes n ++ rest) = some (n, rest) := by
  have hdig : ∀ x ∈ natBytes n, isDigit x = true := by
    intro x hx
    have := natBytes_digits n x hx
    simp [isDigit]
    omega
  have htw : List.takeWhile isDigit rest = [] := by
    cases rest with
    | nil => rfl
    | cons c r =>
      simp only [digitBoundary] at hb
      simp [List.takeWhile_cons, hb]
  have hdw : List.dropWhile isDigit rest = rest := by
    cases rest with
    | nil => rfl
    | cons c r =>
      simp only [digitBoundary] at hb
      simp [List.dropWhile_cons, hb]
  unfold parseNat
  rw [takeWhile_append_all _ _ _ hdig, htw, List.append_nil,
    dropWhile_append_all _ _ _ hdig, hdw]
  have hne := natBytes_ne_nil n
  cases hnb : natBytes n with
  | nil => exact absurd hnb hne
  | cons c cs =>
    simp only []
    rw [← hnb, digitsToNat_natBytes]

/-! ## JSON string round trip -/

theorem pStr_escBytes (s rest : Bytes) :
    pStr (escBytes s ++ 34 :: rest) = some (s, rest) := by
  induction s with
  | nil => rfl
  | cons c cs ih =>
    by_cases h34 : c = 34
    · subst h34
      simp only [escBytes, if_pos rfl, List.cons_append, pStr]
      simp [ih]
    · by_cases h92 : c = 92
      · subst h92
        simp only [escBytes, List.cons_append, pStr]
        simp [ih]
      · by_cases hctl : c < 32
        · have hv1 : hexVal (hexChr (c / 16)) = some (c / 16) :=
            hexVal_chr (c / 16) (by omega)
          have hv2 : hexVal (hexChr (c % 16)) = some (c % 16) :=
            hexVal_chr (c % 16) (by omega)
          have hv0 : hexVal 48 = some 0 := rfl
          simp only [escBytes, if_neg h34, if_neg h92, if_pos hctl,
            List.cons_append, pStr]
          simp only [hv0, hv1, hv2, ih]
          rw [if_pos (by omega)]
          simp only [Option.some.injEq, Prod.mk.injEq, List.cons.injEq]
          refine ⟨⟨by omega, trivial⟩, trivial⟩
        · simp only [escBytes, if_neg h34, if_neg h92, if_neg hctl,
            List.cons_append]
          rw [pStr.eq_7 c _ (fun h => h34 h)
            (fun _ h _ => h92 h) (fun _ h _ => h92 h)
            (fun _ _ _ _ _ h _ => h92 h) (fun h => h92 h)]
          simp [ih]

/-! ## Serializer shape lemmas -/

theorem intBytes_ne_nil (n : Int) : intBytes n ≠ [] := by
  unfold intBytes
  by_cases h : n < 0
  · simp [h]
  · simp [h, natBytes_ne_nil]

theorem serArrTail_head (vs : List Value) (t : Bytes)
    (h : serArrTail vs = some t) : ∃ t', t = 93 :: t' ∨ t = 44 :: t' := by
  cases vs with
  | nil =>
    simp only [serArrTail, Option.some.injEq] at h
    exact ⟨[], Or.inl h.symm⟩
  | cons v vs' =>
    simp only [serArrTail] at h
    cases h1 : serVal v with
    | none => rw [h1] at h; simp at h
    | some sv =>
      cases h2 : serArrTail vs' with
      | none => rw [h1, h2] at h; simp at h
      | some st =>
        rw [h1, h2] at h
        simp only [Option.some.injEq] at h
        exact ⟨sv ++ st, Or.inr h.symm⟩

theorem serObjTail_head (ps : List (Value × Value)) (t : Bytes)
    (h : serObjTail ps = some t) : ∃ t', t = 125 :: t' ∨ t = 44 :: t' := by
  cases ps with
  | nil =>
    simp only [serObjTail, Option.some.injEq] at h
    exact ⟨[], Or.inl h.symm⟩
  | cons p ps' =>
    obtain ⟨k, v⟩ := p
    simp only [serObjTail] at h
    cases h0 : serKey k with
    | none => rw [h0] at h; simp at h
    | some sk =>
      cases h1 : serVal v with
      | none => rw [h0, h1] at h; simp at h
      | some sv =>
        cases h2 : serObjTail ps' with
        | none => rw [h0, h1, h2] at h; simp at h
        | some st =>
          rw [h0, h1, h2] at h
          simp only [Option.some.injEq] at h
          exact ⟨sk ++ 58 :: (sv ++ st), Or.inr h.symm⟩

theorem serVal_ne_nil (v : Value) (t : Bytes) (h : serVal v = some t) :
    t ≠ [] := by
  cases v with
  | Undefined => simp [serVal] at h
  | Null => simp only [serVal, Option.some.injEq] at h; simp [← h]
  | Bool b =>
    cases b <;> (simp only [serVal, Option.some.injEq] at h; simp [← h])
  | Number n =>
    simp only [serVal, Option.some.injEq] at h
    rw [← h]
    exact intBytes_ne_nil n
  | String s =>
    simp only [serVal, Option.some.injEq] at h
    simp [← h]
  | Array vs =>
    cases vs with
    | nil => simp only [serVal, Option.some.injEq] at h; simp [← h]
    | cons v vs' =>
      simp only [serVal] at h
      cases h1 : serVal v <;> cases h2 : serArrTail vs' <;>
        rw [h1, h2] at h <;> simp at h
      simp [← h]
  | SetV vs =>
    cases vs with
    | nil => simp only [serVal, Option.some.injEq] at h; simp [← h]
    | cons v vs' =>
      simp only [serVal] at h
      cases h1 : serVal v <;> cases h2 : serArrTail vs' <;>
        rw [h1, h2] at h <;> simp at h
      simp [← h]
  | Object ps =>
    cases ps with
    | nil => simp only [serVal, Option.some.injEq] at h; simp [← h]
    | cons p ps' =>
      obtain ⟨k, w⟩ := p
      simp only [serVal] at h
      cases h0 : serKey k <;> cases h1 : serVal w <;> cases h2 : serObjTail ps' <;>
        rw [h0, h1, h2] at h <;> simp at h
      simp [← h]

theorem fsize_pos (v : Value) : 1 ≤ fsize v := by
  cases v
  case Array vs => unfold fsize; exact Nat.le_add_right 1 _
  case Object ps => unfold fsize; exact Nat.le_add_right 1 _
  all_goals simp [fsize]

theorem tmax_pos (vs : List Value) : 1 ≤ tmax vs := by
  cases vs with
  | nil => simp [tmax]
  | cons v vs' => unfold tmax; exact Nat.le_add_right 1 _

theorem omax_pos (ps : List (Value × Value)) : 1 ≤ omax ps := by
  cases ps with
  | nil => simp [omax]
  | cons p ps' => unfold omax; exact Nat.le_add_right 1 _

theorem ser_size_bound (n : Nat) :
    (∀ v t, t.length ≤ n → serVal v = some t → fsize v ≤ t.length) ∧
    (∀ vs t, t.length ≤ n → serArrTail vs = some t → tmax vs ≤ t.length) ∧
    (∀ ps t, t.length ≤ n → serObjTail ps = some t → omax ps ≤ t.length) := by
  induction n with
  | zero =>
    refine ⟨?_, ?_, ?_⟩
    · intro v t hl h
      have hne := serVal_ne_nil v t h
      have ht : t = [] := List.length_eq_zero.mp (by omega)
      exact absurd ht hne
    · intro vs t hl h
      obtain ⟨t', ht'⟩ := serArrTail_head vs t h
      rcases ht' with rfl | rfl <;> simp at hl
    · intro ps t hl h
      obtain ⟨t', ht'⟩ := serObjTail_head ps t h
      rcases ht' with rfl | rfl <;> simp at hl
  | succ n ih =>
    obtain ⟨ihv, iha, iho⟩ := ih
    refine ⟨?_, ?_, ?_⟩
    · intro v t hl h
      have hne := serVal_ne_nil v t h
      have hpos : 1 ≤ t.length := by
        cases t
        · exact absurd rfl hne
        · simp
      cases v
      case Array vs =>
        cases vs with
        | nil => simpa [fsize] using hpos
        | cons v1 vs' =>
          simp only [serVal] at h
          cases h1 : serVal v1 with
          | none => rw [h1] at h; simp at h
          | some sv =>
            cases h2 : serArrTail vs' with
            | none => rw [h1, h2] at h; simp at h
            | some st =>
              rw [h1, h2] at h
              simp only [Option.some.injEq] at h
              obtain ⟨st0, hst0⟩ := serArrTail_head vs' st h2
              have hstpos : 1 ≤ st.length := by
                rcases hst0 with rfl | rfl <;> simp
              have htl : t.length = 1 + sv.length + st.length := by
                rw [← h]; simp; omega
              have b1 : fsize v1 ≤ sv.length :=
                ihv v1 sv (by omega) h1
              have b2 : tmax vs' ≤ st.length :=
                iha vs' st (by omega) h2
              have hm : max (fsize v1) (tmax vs') ≤ sv.length + st.length :=
                Nat.max_le.mpr ⟨by omega, by omega⟩
              simp only [fsize]
              omega
      case Object ps =>
        cases ps with
        | nil => simpa [fsize] using hpos
        | cons p ps' =>
          obtain ⟨k, w⟩ := p
          simp only [serVal] at h
          cases h0 : serKey k with
          | none => rw [h0] at h; simp at h
          | some sk =>
            cases h1 : serVal w with
            | none => rw [h0, h1] at h; simp at h
            | some sv =>
              cases h2 : serObjTail ps' with
              | none => rw [h0, h1, h2] at h; simp at h
              | some st =>
                rw [h0, h1, h2] at h
                simp only [Option.some.injEq] at h
                obtain ⟨st0, hst0⟩ := serObjTail_head ps' st h2
                have hstpos : 1 ≤ st.length := by
                  rcases hst0 with rfl | rfl <;> simp
                have htl : t.length =
                    1 + sk.length + 1 + sv.length + st.length := by
                  rw [← h]; simp; omega
                have b1 : fsize w ≤ sv.length :=
                  ihv w sv (by omega) h1
                have b2 : omax ps' ≤ st.length :=
                  iho ps' st (by omega) h2
                have hm : max (fsize w) (omax ps') ≤ sv.length + st.length :=
                  Nat.max_le.mpr ⟨by omega, by omega⟩
                simp only [fsize]
                omega
      all_goals simpa [fsize] using hpos
    · intro vs t hl h
      cases vs with
      | nil =>
        simp only [serArrTail, Option.some.injEq] at h
        subst h
        simp [tmax]
      | cons v1 vs' =>
        simp only [serArrTail] at h
        cases h1 : serVal v1 with
        | none => rw [h1] at h; simp at h
        | some sv =>
          cases h2 : serArrTail vs' with
          | none => rw [h1, h2] at h; simp at h
          | some st =>
            rw [h1, h2] at h
            simp only [Option.some.injEq] at h
            obtain ⟨st0, hst0⟩ := serArrTail_head vs' st h2
            have hstpos : 1 ≤ st.length := by
              rcases hst0 with rfl | rfl <;> simp
            have htl : t.length = 1 + sv.length + st.length := by
              rw [← h]; simp; omega
            have b1 : fsize v1 ≤ sv.length := ihv v1 sv (by omega) h1
            have b2 : tmax vs' ≤ st.length := iha vs' st (by omega) h2
            have hm : max (fsize v1) (tmax vs') ≤ sv.length + st.length :=
              Nat.max_le.mpr ⟨by omega, by omega⟩
            simp only [tmax]
            omega
    · intro ps t hl h
      cases ps with
      | nil =>
        simp only [serObjTail, Option.some.injEq] at h
        subst h
        simp [omax]
      | cons p ps' =>
        obtain ⟨k, w⟩ := p
        simp only [serObjTail] at h
        cases h0 : serKey k with
        | none => rw [h0] at h; simp at h
        | some sk =>
          cases h1 : serVal w with
          | none => rw [h0, h1] at h; simp at h
          | some sv =>
            cases h2 : serObjTail ps' with
            | none => rw [h0, h1, h2] at h; simp at h
            | some st =>
              rw [h0, h1, h2] at h
              simp only [Option.some.injEq] at h
              obtain ⟨st0, hst0⟩ := serObjTail_head ps' st h2
              have hstpos : 1 ≤ st.length := by
                rcases hst0 with rfl | rfl <;> simp
              have htl : t.length =
                  1 + sk.length + 1 + sv.length + st.length := by
                rw [← h]; simp; omega
              have b1 : fsize w ≤ sv.length := ihv w sv (by omega) h1
              have b2 : omax ps' ≤ st.length := iho ps' st (by omega) h2
              have hm : max (fsize w) (omax ps') ≤ sv.length + st.length :=
                Nat.max_le.mpr ⟨by omega, by omega⟩
              simp only [omax]
              omega

/-! ## Object map reconstruction lemmas -/

theorem goodPairs_strKeys (ps : List (Value × Value)) (h : goodPairs ps = true) :
    strKeys ps := by
  induction ps with
  | nil => intro p hp; simp at hp
  | cons p ps' ih =>
    obtain ⟨k, v⟩ := p
    simp only [goodPairs, Bool.and_eq_true] at h
    intro q hq
    simp only [List.mem_cons] at hq
    rcases hq with rfl | hq
    · obtain ⟨⟨hk, _⟩, _⟩ := h
      cases k
      case String s => exact ⟨s, rfl⟩
      all_goals simp at hk
    · exact ih h.2 q hq

theorem keyLt_trans_str (p q r : Value × Value) (hp : ∃ b, p.1 = Value.String b)
    (hq : ∃ b, q.1 = Value.String b) (hr : ∃ b, r.1 = Value.String b)
    (h1 : keyLt p q) (h2 : keyLt q r) : keyLt p r := by
  obtain ⟨pb, hpb⟩ := hp
  obtain ⟨qb, hqb⟩ := hq
  obtain ⟨rb, hrb⟩ := hr
  simp only [keyLt, hpb, hqb, hrb, cmp_string_string] at h1 h2 ⊢
  exact bytesCmp_lt_trans h1 h2

theorem sortedPairs_pairwise (ps : List (Value × Value)) (hstr : strKeys ps)
    (h : sortedPairs ps = true) : List.Pairwise keyLt ps := by
  induction ps with
  | nil => exact List.Pairwise.nil
  | cons p ps' ih =>
    cases ps' with
    | nil => simp
    | cons q ps'' =>
      unfold sortedPairs at h
      have hlt : Value.cmp p.1 q.1 = .lt := by
        cases hc : Value.cmp p.1 q.1 <;> rw [hc] at h
        · simp at h
        · simp at h
      rw [hlt] at h
      have hstr' : strKeys (q :: ps'') := fun r hr => hstr r (by simp [hr])
      have htail := ih hstr' h
      refine List.pairwise_cons.mpr ⟨?_, htail⟩
      intro r hr
      simp only [List.mem_cons] at hr
      rcases hr with rfl | hr
      · exact hlt
      · have hqr : keyLt q r := (List.pairwise_cons.mp htail).1 r hr
        exact keyLt_trans_str p q r (hstr p (by simp)) (hstr q (by simp))
          (hstr r (by simp [hr])) hlt hqr

theorem mapInsert_append_last (kb : Bytes) (v : Value)
    (m : List (Value × Value)) (hstr : strKeys m)
    (hlt : ∀ q ∈ m, keyLt q (Value.String kb, v)) :
    mapInsert (.String kb) v m = m ++ [(.String kb, v)] := by
  induction m with
  | nil => rfl
  | cons q rest ih =>
    obtain ⟨k', w⟩ := q
    obtain ⟨qb, hq⟩ := hstr (k', w) (by simp)
    simp only at hq
    subst hq
    have hql := hlt (Value.String qb, w) (by simp)
    simp only [keyLt, cmp_string_string] at hql
    have hgt : bytesCmp kb qb = .gt := (bytesCmp_gt_iff kb qb).mpr hql
    simp only [mapInsert, cmp_string_string, hgt]
    rw [ih (fun p hp => hstr p (by simp [hp])) (fun p hp => hlt p (by simp [hp]))]
    simp

theorem buildMap_sorted_aux (ps : List (Value × Value)) :
    ∀ m, strKeys (m ++ ps) → List.Pairwise keyLt (m ++ ps) →
      ps.foldl (fun acc p => mapInsert p.1 p.2 acc) m = m ++ ps := by
  induction ps with
  | nil => intro m _ _; simp
  | cons p ps' ih =>
    intro m hstr hpw
    obtain ⟨pk, pv⟩ := p
    obtain ⟨kb, hk⟩ := hstr (pk, pv) (by simp)
    simp only at hk
    subst hk
    have hins : mapInsert (Value.String kb) pv m = m ++ [(Value.String kb, pv)] := by
      apply mapInsert_append_last kb pv m (fun q hq => hstr q (by simp [hq]))
      intro q hq
      exact (List.pairwise_append.mp hpw).2.2 q hq (Value.String kb, pv) (by simp)
    have hre : (m ++ [(Value.String kb, pv)]) ++ ps' =
        m ++ (Value.String kb, pv) :: ps' := by simp
    simp only [List.foldl_cons, hins]
    rw [ih (m ++ [(Value.String kb, pv)]) (by rw [hre]; exact hstr)
      (by rw [hre]; exact hpw), hre]

theorem buildMap_sorted (ps : List (Value × Value)) (hstr : strKeys ps)
    (hpw : List.Pairwise keyLt ps) : buildMap ps = ps := by
  have h := buildMap_sorted_aux ps [] (by simpa) (by simpa)
  simpa [buildMap] using h

theorem serVal_head_ne (v : Value) (t : Bytes) (h : serVal v = some t) :
    ∃ c t', t = c :: t' ∧ c ≠ 93 := by
  cases v with
  | Undefined => simp [serVal] at h
  | Null =>
    simp only [serVal, Option.some.injEq] at h
    exact ⟨110, _, h.symm, by decide⟩
  | Bool b =>
    cases b <;> simp only [serVal, Option.some.injEq] at h
    · exact ⟨102, _, h.symm, by decide⟩
    · exact ⟨116, _, h.symm, by decide⟩
  | Number n =>
    simp only [serVal, Option.some.injEq] at h
    unfold intBytes at h
    by_cases hn : n < 0
    · rw [if_pos hn] at h
      exact ⟨45, _, h.symm, by decide⟩
    · rw [if_neg hn] at h
      cases hnb : natBytes n.natAbs with
      | nil => exact absurd hnb (natBytes_ne_nil _)
      | cons c cs =>
        rw [hnb] at h
        have hd := natBytes_digits n.natAbs c (by rw [hnb]; simp)
        exact ⟨c, cs, h.symm, by omega⟩
  | String s =>
    simp only [serVal, Option.some.injEq] at h
    exact ⟨34, _, h.symm, by decide⟩
  | Array vs =>
    cases vs with
    | nil =>
      simp only [serVal, Option.some.injEq] at h
      exact ⟨91, _, h.symm, by decide⟩
    | cons v vs' =>
      simp only [serVal] at h
      cases h1 : serVal v <;> cases h2 : serArrTail vs' <;>
        rw [h1, h2] at h <;> simp at h
      exact ⟨91, _, h.symm, by decide⟩
  | SetV vs =>
    cases vs with
    | nil =>
      simp only [serVal, Option.some.injEq] at h
      exact ⟨91, _, h.symm, by decide⟩
    | cons v vs' =>
      simp only [serVal] at h
      cases h1 : serVal v <;> cases h2 : serArrTail vs' <;>
        rw [h1, h2] at h <;> simp at h
      exact ⟨91, _, h.symm, by decide⟩
  | Object ps =>
    cases ps with
    | nil =>
      simp only [serVal, Option.some.injEq] at h
      exact ⟨123, _, h.symm, by decide⟩
    | cons p ps' =>
      obtain ⟨k, w⟩ := p
      simp only [serVal] at h
      cases h0 : serKey k <;> cases h1 : serVal w <;> cases h2 : serObjTail ps' <;>
        rw [h0, h1, h2] at h <;> simp at h
      exact ⟨123, _, h.symm, by decide⟩

theorem serArrTail_boundary (vs : List Value) (st rest : Bytes)
    (h : serArrTail vs = some st) : digitBoundary (st ++ rest) := by
  obtain ⟨t', ht'⟩ := serArrTail_head vs st h
  rcases ht' with rfl | rfl <;> simp [digitBoundary, isDigit]

theorem serObjTail_boundary (ps : List (Value × Value)) (st rest : Bytes)
    (h : serObjTail ps = some st) : digitBoundary (st ++ rest) := by
  obtain ⟨t', ht'⟩ := serObjTail_head ps st h
  rcases ht' with rfl | rfl <;> simp [digitBoundary, isDigit]

theorem parse_ser (f : Nat) :
    (∀ v t rest, good v = true → serVal v = some t → fsize v ≤ f →
      digitBoundary rest → pVal f (t ++ rest) = some (v, rest)) ∧
    (∀ vs t rest, goodList vs = true → serArrTail vs = some t → tmax vs ≤ f →
      pArrTail f (t ++ rest) = some (vs, rest)) ∧
    (∀ ps t rest, goodPairs ps = true → serObjTail ps = some t → omax ps ≤ f →
      pObjTail f (t ++ rest) = some (ps, rest)) := by
  induction f with
  | zero =>
    refine ⟨?_, ?_, ?_⟩
    · intro v t rest _ _ hf _
      have := fsize_pos v
      omega
    · intro vs t rest _ _ hf
      have := tmax_pos vs
      omega
    · intro ps t rest _ _ hf
      have := omax_pos ps
      omega
  | succ f ih =>
    obtain ⟨ihA, ihB, ihC⟩ := ih
    refine ⟨?_, ?_, ?_⟩
    · intro v t rest hg h hf hb
      cases v with
      | Undefined => simp [good] at hg
      | SetV vs => simp [good] at hg
      | Null =>
        simp only [serVal, Option.some.injEq] at h
        subst h
        rfl
      | Bool b =>
        cases b <;> simp only [serVal, Option.some.injEq] at h <;> subst h <;> rfl
      | Number n =>
        simp only [serVal, Option.some.injEq] at h
        unfold intBytes at h
        by_cases hn : n < 0
        · rw [if_pos hn] at h
          subst h
          show pVal (f + 1) (45 :: (natBytes n.natAbs ++ rest)) =
            some (Value.Number n, rest)
          simp only [pVal]
          rw [if_neg (by decide), if_neg (by decide), if_neg (by decide),
            if_neg (by decide)]
          rw [if_pos trivial]
          simp only [parseNat_natBytes n.natAbs rest hb]
          have hval : -((n.natAbs : Nat) : Int) = n := by omega
          rw [hval]
        · rw [if_neg hn] at h
          subst h
          cases hnb : natBytes n.natAbs with
          | nil => exact absurd hnb (natBytes_ne_nil _)
          | cons c cs =>
            have hd := natBytes_digits n.natAbs c (by rw [hnb]; simp)
            show pVal (f + 1) (c :: (cs ++ rest)) = some (Value.Number n, rest)
            simp only [pVal]
            rw [if_neg (by omega), if_neg (by omega), if_neg (by omega),
              if_neg (by omega), if_neg (by omega),
              if_pos (by simp only [isDigit, decide_eq_true_eq]; omega)]
            have hpn : parseNat (c :: (cs ++ rest)) = some (n.natAbs, rest) := by
              have heq : c :: (cs ++ rest) = natBytes n.natAbs ++ rest := by
                rw [hnb]; simp
              rw [heq]
              exact parseNat_natBytes n.natAbs rest hb
            simp only [hpn]
            have hval : ((n.natAbs : Nat) : Int) = n := by omega
            simp [hval]
      | String s =>
        simp only [serVal, Option.some.injEq] at h
        subst h
        have hsh : (34 :: (escBytes s ++ [34])) ++ rest =
            34 :: (escBytes s ++ 34 :: rest) := by simp
        rw [hsh]
        simp [pVal, pStr_escBytes]
      | Array vs =>
        cases vs with
        | nil =>
          simp only [serVal, Option.some.injEq] at h
          subst h
          rfl
        | cons v1 vs' =>
          simp only [serVal] at h
          cases h1 : serVal v1 with
          | none => rw [h1] at h; simp at h
          | some sv =>
            cases h2 : serArrTail vs' with
            | none => rw [h1, h2] at h; simp at h
            | some st =>
              rw [h1, h2] at h
              simp only [Option.some.injEq] at h
              subst h
              simp only [good, goodList, Bool.and_eq_true] at hg
              obtain ⟨hg1, hg2⟩ := hg
              simp only [fsize] at hf
              have hf1 : fsize v1 ≤ f := by
                have := le_max_left (fsize v1) (tmax vs')
                omega
              have hf2 : tmax vs' ≤ f := by
                have := le_max_right (fsize v1) (tmax vs')
                omega
              obtain ⟨c0, sv', rfl, hc0⟩ := serVal_head_ne v1 sv h1
              have hbd := serArrTail_boundary vs' st rest h2
              have hA := ihA v1 (c0 :: sv') (st ++ rest) hg1 h1 hf1 hbd
              have hB := ihB vs' st rest hg2 h2 hf2
              have hsh : (91 :: ((c0 :: sv') ++ st)) ++ rest =
                  91 :: (c0 :: (sv' ++ (st ++ rest))) := by simp
              rw [hsh]
              simp only [pVal]
              rw [if_neg (by decide), if_neg (by decide), if_neg (by decide),
                if_neg (by decide), if_neg (by decide), if_neg (by decide)]
              rw [if_pos trivial]
              rw [if_neg hc0]
              have hA' : pVal f (c0 :: (sv' ++ (st ++ rest))) =
                  some (v1, st ++ rest) := by
                have heq : c0 :: (sv' ++ (st ++ rest)) =
                    (c0 :: sv') ++ (st ++ rest) := by simp
                rw [heq]
                exact hA
              simp [hA', hB]
      | Object ps =>
        cases ps with
        | nil =>
          simp only [serVal, Option.some.injEq] at h
          subst h
          rfl
        | cons p ps' =>
          obtain ⟨k, w⟩ := p
          simp only [serVal] at h
          cases h0 : serKey k with
          | none => rw [h0] at h; simp at h
          | some sk =>
            cases h1 : serVal w with
            | none => rw [h0, h1] at h; simp at h
            | some sv =>
              cases h2 : serObjTail ps' with
              | none => rw [h0, h1, h2] at h; simp at h
              | some st =>
                rw [h0, h1, h2] at h
                simp only [Option.some.injEq] at h
                subst h
                simp only [good, Bool.and_eq_true] at hg
                obtain ⟨hgp, hsp⟩ := hg
                have hgp' := hgp
                simp only [goodPairs, Bool.and_eq_true] at hgp'
                obtain ⟨⟨hk, hgw⟩, hgps⟩ := hgp'
                obtain ⟨kb, rfl⟩ : ∃ kb, k = Value.String kb := by
                  cases k
                  case String s => exact ⟨s, rfl⟩
                  all_goals simp at hk
                have hsk : sk = 34 :: (escBytes kb ++ [34]) := by
                  simp only [serKey, Option.some.injEq] at h0
                  exact h0.symm
                subst hsk
                simp only [fsize] at hf
                have hf1 : fsize w ≤ f := by
                  have := le_max_left (fsize w) (omax ps')
                  omega
                have hf2 : omax ps' ≤ f := by
                  have := le_max_right (fsize w) (omax ps')
                  omega
                have hbd := serObjTail_boundary ps' st rest h2
                have hA := ihA w sv (st ++ rest) hgw h1 hf1 hbd
                have hC := ihC ps' st rest hgps h2 hf2
                have hsh : (123 :: ((34 :: (escBytes kb ++ [34])) ++
                    58 :: (sv ++ st))) ++ rest =
                    123 :: (34 :: (escBytes kb ++
                      (34 :: (58 :: (sv ++ (st ++ rest)))))) := by simp
                rw [hsh]
                simp only [pVal]
                rw [if_neg (by decide), if_neg (by decide), if_neg (by decide),
                  if_neg (by decide), if_neg (by decide), if_neg (by decide),
                  if_neg (by decide)]
                rw [if_pos trivial]
                rw [if_neg (by decide)]
                rw [if_pos trivial]
                simp only [pStr_escBytes, hA, hC]
                rw [buildMap_sorted ((Value.String kb, w) :: ps')
                  (goodPairs_strKeys _ hgp)
                  (sortedPairs_pairwise _ (goodPairs_strKeys _ hgp) hsp)]
    · intro vs t rest hg h hf
      cases vs with
      | nil =>
        simp only [serArrTail, Option.some.injEq] at h
        subst h
        rfl
      | cons v1 vs' =>
        simp only [serArrTail] at h
        cases h1 : serVal v1 with
        | none => rw [h1] at h; simp at h
        | some sv =>
          cases h2 : serArrTail vs' with
          | none => rw [h1, h2] at h; simp at h
          | some st =>
            rw [h1, h2] at h
            simp only [Option.some.injEq] at h
            subst h
            simp only [goodList, Bool.and_eq_true] at hg
            obtain ⟨hg1, hg2⟩ := hg
            simp only [tmax] at hf
            have hf1 : fsize v1 ≤ f := by
              have := le_max_left (fsize v1) (tmax vs')
              omega
            have hf2 : tmax vs' ≤ f := by
              have := le_max_right (fsize v1) (tmax vs')
              omega
            have hbd := serArrTail_boundary vs' st rest h2
            have hA := ihA v1 sv (st ++ rest) hg1 h1 hf1 hbd
            have hB := ihB vs' st rest hg2 h2 hf2
            have hsh : (44 :: (sv ++ st)) ++ rest =
                44 :: (sv ++ (st ++ rest)) := by simp
            rw [hsh]
            simp only [pArrTail]
            rw [if_neg (by decide)]
            rw [if_pos trivial]
            simp [hA, hB]
    · intro ps t rest hg h hf
      cases ps with
      | nil =>
        simp only [serObjTail, Option.some.injEq] at h
        subst h
        rfl
      | cons p ps' =>
        obtain ⟨k, w⟩ := p
        simp only [serObjTail] at h
        cases h0 : serKey k with
        | none => rw [h0] at h; simp at h
        | some sk =>
          cases h1 : serVal w with
          | none => rw [h0, h1] at h; simp at h
          | some sv =>
            cases h2 : serObjTail ps' with
            | none => rw [h0, h1, h2] at h; simp at h
            | some st =>
              rw [h0, h1, h2] at h
              simp only [Option.some.injEq] at h
              subst h
              simp only [goodPairs, Bool.and_eq_true] at hg
              obtain ⟨⟨hk, hgw⟩, hgps⟩ := hg
              obtain ⟨kb, rfl⟩ : ∃ kb, k = Value.String kb := by
                cases k
                case String s => exact ⟨s, rfl⟩
                all_goals simp at hk
              have hsk : sk = 34 :: (escBytes kb ++ [34]) := by
                simp only [serKey, Option.some.injEq] at h0
                exact h0.symm
              subst hsk
              simp only [omax] at hf
              have hf1 : fsize w ≤ f := by
                have := le_max_left (fsize w) (omax ps')
                omega
              have hf2 : omax ps' ≤ f := by
                have := le_max_right (fsize w) (omax ps')
                omega
              have hbd := serObjTail_boundary ps' st rest h2
              have hA := ihA w sv (st ++ rest) hgw h1 hf1 hbd
              have hC := ihC ps' st rest hgps h2 hf2
              have hsh : (44 :: ((34 :: (escBytes kb ++ [34])) ++
                  58 :: (sv ++ st))) ++ rest =
                  44 :: (34 :: (escBytes kb ++
                    (34 :: (58 :: (sv ++ (st ++ rest)))))) := by simp
              rw [hsh]
              simp only [pObjTail]
              rw [if_neg (by decide)]
              rw [if_pos trivial]
              simp only [pStr_escBytes, hA, hC]

theorem ser_total (f : Nat) :
    (∀ v, good v = true → fsize v ≤ f → ∃ t, serVal v = some t) ∧
    (∀ vs, goodList vs = true → tmax vs ≤ f → ∃ t, serArrTail vs = some t) ∧
    (∀ ps, goodPairs ps = true → omax ps ≤ f → ∃ t, serObjTail ps = some t) := by
  induction f with
  | zero =>
    refine ⟨?_, ?_, ?_⟩
    · intro v _ hf
      have := fsize_pos v
      omega
    · intro vs _ hf
      have := tmax_pos vs
      omega
    · intro ps _ hf
      have := omax_pos ps
      omega
  | succ f ih =>
    obtain ⟨ihA, ihB, ihC⟩ := ih
    refine ⟨?_, ?_, ?_⟩
    · intro v hg hf
      cases v with
      | Undefined => simp [good] at hg
      | SetV vs => simp [good] at hg
      | Null => exact ⟨_, rfl⟩
      | Bool b => cases b <;> exact ⟨_, rfl⟩
      | Number n => exact ⟨_, rfl⟩
      | String s => exact ⟨_, rfl⟩
      | Array vs =>
        cases vs with
        | nil => exact ⟨_, rfl⟩
        | cons v1 vs' =>
          simp only [good, goodList, Bool.and_eq_true] at hg
          simp only [fsize] at hf
          obtain ⟨sv, h1⟩ := ihA v1 hg.1 (by
            have := le_max_left (fsize v1) (tmax vs')
            omega)
          obtain ⟨st, h2⟩ := ihB vs' hg.2 (by
            have := le_max_right (fsize v1) (tmax vs')
            omega)
          exact ⟨91 :: (sv ++ st), by simp only [serVal, h1, h2]⟩
      | Object ps =>
        cases ps with
        | nil => exact ⟨_, rfl⟩
        | cons p ps' =>
          obtain ⟨k, w⟩ := p
          simp only [good, Bool.and_eq_true] at hg
          obtain ⟨hgp, hsp0⟩ := hg
          simp only [goodPairs, Bool.and_eq_true] at hgp
          obtain ⟨⟨hk, hgw⟩, hgps⟩ := hgp
          obtain ⟨kb, rfl⟩ : ∃ kb, k = Value.String kb := by
            cases k
            case String kb0 => exact ⟨kb0, rfl⟩
            all_goals simp at hk
          simp only [fsize] at hf
          obtain ⟨sv, h1⟩ := ihA w hgw (by
            have := le_max_left (fsize w) (omax ps')
            omega)
          obtain ⟨st, h2⟩ := ihC ps' hgps (by
            have := le_max_right (fsize w) (omax ps')
            omega)
          exact ⟨123 :: ((34 :: (escBytes kb ++ [34])) ++ 58 :: (sv ++ st)),
            by simp only [serVal, serKey, h1, h2]⟩
    · intro vs hg hf
      cases vs with
      | nil => exact ⟨_, rfl⟩
      | cons v1 vs' =>
        simp only [goodList, Bool.and_eq_true] at hg
        simp only [tmax] at hf
        obtain ⟨sv, h1⟩ := ihA v1 hg.1 (by
          have := le_max_left (fsize v1) (tmax vs')
          omega)
        obtain ⟨st, h2⟩ := ihB vs' hg.2 (by
          have := le_max_right (fsize v1) (tmax vs')
          omega)
        exact ⟨44 :: (sv ++ st), by simp only [serArrTail, h1, h2]⟩
    · intro ps hg hf
      cases ps with
      | nil => exact ⟨_, rfl⟩
      | cons p ps' =>
        obtain ⟨k, w⟩ := p
        simp only [goodPairs, Bool.and_eq_true] at hg
        obtain ⟨⟨hk, hgw⟩, hgps⟩ := hg
        obtain ⟨kb, rfl⟩ : ∃ kb, k = Value.String kb := by
          cases k
          case String kb0 => exact ⟨kb0, rfl⟩
          all_goals simp at hk
        simp only [omax] at hf
        obtain ⟨sv, h1⟩ := ihA w hgw (by
          have := le_max_left (fsize w) (omax ps')
          omega)
        obtain ⟨st, h2⟩ := ihC ps' hgps (by
          have := le_max_right (fsize w) (omax ps')
          omega)
        exact ⟨44 :: ((34 :: (escBytes kb ++ [34])) ++ 58 :: (sv ++ st)),
          by simp only [serObjTail, serKey, h1, h2]⟩

/-- Parsing the serialization of a well-formed value recovers the value. -/
theorem jsonParse_serVal (v : Value) (t : Bytes) (hg : good v = true)
    (h : serVal v = some t) : jsonParse t = some v := by
  unfold jsonParse
  have hbound : fsize v ≤ t.length :=
    (ser_size_bound t.length).1 v t (le_refl _) h
  have hp := (parse_ser (t.length + 1)).1 v t [] hg h (by omega) trivial
  rw [List.append_nil] at hp
  rw [hp]

/-- C4 counterexample: the object whose single key is Null is built only
from the Null/Bool/Number/String/Array/Object variants, yet `json.marshal`
(and `yaml.marshal`) fail on it — a map key must serialize as a JSON
string — so the round trip does not succeed, let alone return the value. -/
theorem marshal_roundtrip_counterexample :
    json_marshal [.Object [(.Null, .Null)]] true =
      .error (.callError (sb "could not serialize to json")) ∧
    yaml_marshal [.Object [(.Null, .Null)]] true =
      .error (.callError (sb "could not serialize to yaml")) :=
  ⟨rfl, rfl⟩

/-- C4 (amended): for every well-formed Value built only from the
Null/Bool/Number/String/Array/Object variants whose object maps are
key-sorted with string keys (`good`), `json.unmarshal(json.marshal(v))`
succeeds and returns `v`, and the same round trip holds for
`yaml.marshal`/`yaml.unmarshal`. -/
theorem marshal_unmarshal_roundtrip (v : Value) (strict : Bool)
    (hg : good v = true) :
    (∃ t, json_marshal [v] strict = .ok (.String t) ∧
      json_unmarshal [.String t] strict = .ok v) ∧
    (∃ t, yaml_marshal [v] strict = .ok (.String t) ∧
      yaml_unmarshal [.String t] strict = .ok v) := by
  obtain ⟨t, ht⟩ := (ser_total (fsize v)).1 v hg (le_refl _)
  have hp := jsonParse_serVal v t hg ht
  refine ⟨⟨t, ?_, ?_⟩, ⟨t, ?_, ?_⟩⟩
  · simp [json_marshal, ensure_args_count, ht]
  · simp [json_unmarshal, ensure_args_count, ensure_string, hp]
  · simp [yaml_marshal, ensure_args_count, yamlSer, ht]
  · simp [yaml_unmarshal, ensure_args_count, ensure_string, yamlParse, hp]

theorem marshal_unmarshal_roundtrip_witness :
    ∃ t, json_marshal [.Object [(.String (sb "a"), .Number 1)]] true =
        .ok (.String t) ∧
      json_unmarshal [.String t] true =
        .ok (.Object [(.String (sb "a"), .Number 1)]) :=
  (marshal_unmarshal_roundtrip (.Object [(.String (sb "a"), .Number 1)]) true
    rfl).1

/-- C2: for every document that marshals (any well-formed six-variant
value) and every schema whose compilation succeeds, `json.match_schema`
never raises: it returns `[true, null]` when the document validates and
`[false, list-of-error-strings]` with at least one error string when it
does not; the strict-mode flag does not affect the result.  The spec's
example document/schema pair returns `[false, ["type mismatch"]]`. -/
theorem json_match_schema_validation (doc schema : Value) (strict : Bool)
    (sc : Value) (hgd : good doc = true)
    (hc : compile_json_schema schema = .ok sc) :
    (∃ r, json_match_schema [doc, schema] strict = .ok r ∧
      (r = .Array [.Bool true, .Null] ∨
        ∃ e es, r = .Array [.Bool false,
          .Array ((e :: es).map (fun m => Value.String m))])) ∧
    json_match_schema [doc, schema] true =
      json_match_schema [doc, schema] false ∧
    json_match_schema
      [.Object [(.String (sb "x"), .Number 1)],
       .Object [(.String (sb "properties"),
           .Object [(.String (sb "x"),
             .Object [(.String (sb "type"), .String (sb "string"))])]),
         (.String (sb "type"), .String (sb "object"))]] strict =
      .ok (.Array [.Bool false, .Array [.String (sb "type mismatch")]]) := by
  obtain ⟨dt, hdt⟩ := (ser_total (fsize doc)).1 doc hgd (le_refl _)
  have hparse := jsonParse_serVal doc dt hgd hdt
  have hred : ∀ b : Bool, json_match_schema [doc, schema] b =
      (match schemaValidate sc doc with
       | [] => .ok (.Array [.Bool true, .Null])
       | e :: es => .ok (.Array [.Bool false,
           .Array ((e :: es).map (fun m => Value.String m))])) := by
    intro b
    unfold json_match_schema
    simp only [ensure_args_count, List.length_cons, List.length_nil]
    norm_num
    simp only [List.headD, List.drop, hdt, hparse, hc]
  refine ⟨?_, by rw [hred true, hred false], ?_⟩
  · rw [hred strict]
    cases hv : schemaValidate sc doc with
    | nil => exact ⟨_, rfl, Or.inl rfl⟩
    | cons e es => exact ⟨_, rfl, Or.inr ⟨e, es, rfl⟩⟩
  · cases strict <;> rfl

theorem json_match_schema_validation_witness :
    ∃ r, json_match_schema [.Null, .String (sb "true")] false = .ok r ∧
      (r = .Array [.Bool true, .Null] ∨
        ∃ e es, r = .Array [.Bool false,
          .Array ((e :: es).map (fun m => Value.String m))]) :=
  (json_match_schema_validation .Null (.String (sb "true")) false (.Bool true)
    rfl rfl).1
